import Mathlib

/-!
Verification development for the HelpingAI JavaScript SDK streaming pipeline
(`src/client.ts` / `src/errors.ts`).  The definitions below are a shallow
embedding of the SDK's streaming tag-aware content filter
(`createFilteredStreamGenerator`), the non-streaming filter
(`filterThinkSerBlocks` / `filterCompletion`), the SSE event framer
(`handleStreamResponse`), and the HTTP error classifier
(`handleErrorResponse` together with the error-class constructors).
Text is modelled as `List Char`; JavaScript strings' truthiness (empty
string and `undefined` are falsy) is modelled explicitly at each use site.
-/

namespace HAI

abbrev Str := List Char

/-- `isPre p s` is `String.startsWith` on the underlying character lists:
`s` starts with `p`. -/
def isPre : Str → Str → Bool
  | [], _ => true
  | _ :: _, [] => false
  | a :: as, b :: bs => a == b && isPre as bs

/-- The JavaScript `\s` character class (also the set trimmed by
`String.prototype.trim`): ASCII whitespace plus the Unicode space
characters. -/
def jsWhitespace (c : Char) : Bool :=
  c == ' ' || c == '\t' || c == '\n' || c == '\r' ||
  c == Char.ofNat 11 || c == Char.ofNat 12 ||
  c == Char.ofNat 0xa0 || c == Char.ofNat 0x1680 ||
  (0x2000 ≤ c.toNat && c.toNat ≤ 0x200a) ||
  c == Char.ofNat 0x2028 || c == Char.ofNat 0x2029 ||
  c == Char.ofNat 0x202f || c == Char.ofNat 0x205f ||
  c == Char.ofNat 0x3000 || c == Char.ofNat 0xfeff

/-- The JavaScript `\w` character class `[A-Za-z0-9_]`. -/
def isWordChar (c : Char) : Bool :=
  c == '_' || (('a' ≤ c && c ≤ 'z') || ('A' ≤ c && c ≤ 'Z') || c.isDigit)

/-- The tag `<think>` (source: string literal in `createFilteredStreamGenerator`). -/
def openThink : Str := ['<', 't', 'h', 'i', 'n', 'k', '>']

/-- The tag `</think>`. -/
def closeThink : Str := ['<', '/', 't', 'h', 'i', 'n', 'k', '>']

/-- The tag `<ser>`. -/
def openSer : Str := ['<', 's', 'e', 'r', '>']

/-- The tag `</ser>`. -/
def closeSer : Str := ['<', '/', 's', 'e', 'r', '>']

/-- The TS `StreamingState` interface: `isReasoning` / `isSer` flags. -/
structure StreamingState where
  isReasoning : Bool
  isSer : Bool
deriving DecidableEq, Repr

/-- The mutable locals of `createFilteredStreamGenerator` other than the
carry-over buffer: `state`, `consecutiveNewlines`, `lastCharWasSpace`,
`streamStarted`. -/
structure FilterCtx where
  state : StreamingState
  consecutiveNewlines : Nat
  lastCharWasSpace : Bool
  streamStarted : Bool
deriving DecidableEq, Repr

/-- One execution of the inner `while (processedLen < buffer.length)` loop of
`createFilteredStreamGenerator` (`client.ts` lines 626-699), fuel-indexed so
that it is structurally recursive.  Returns the updated context, the
unconsumed remainder of the buffer (`buffer.slice(processedLen)`), and the
emitted `outputContent`.  The fuel is never exhausted when it is at least the
buffer length, since every iteration consumes at least one character. -/
def filterLoopF : Nat → FilterCtx → Str → FilterCtx × Str × Str
  | 0, ctx, buf => (ctx, buf, [])
  | _ + 1, ctx, [] => (ctx, [], [])
  | n + 1, ctx, c :: rest =>
    if ctx.state.isReasoning then
      if isPre closeThink (c :: rest) then
        filterLoopF n { ctx with state := { ctx.state with isReasoning := false },
                                 lastCharWasSpace := true } ((c :: rest).drop 8)
      else if isPre (c :: rest) closeThink then (ctx, c :: rest, [])
      else filterLoopF n ctx rest
    else if ctx.state.isSer then
      if isPre closeSer (c :: rest) then
        filterLoopF n { ctx with state := { ctx.state with isSer := false },
                                 lastCharWasSpace := true } ((c :: rest).drop 6)
      else if isPre (c :: rest) closeSer then (ctx, c :: rest, [])
      else filterLoopF n ctx rest
    else if isPre openThink (c :: rest) then
      filterLoopF n { ctx with state := { ctx.state with isReasoning := true } } ((c :: rest).drop 7)
    else if isPre openSer (c :: rest) then
      filterLoopF n { ctx with state := { ctx.state with isSer := true } } ((c :: rest).drop 5)
    else if isPre (c :: rest) openThink || isPre (c :: rest) openSer then (ctx, c :: rest, [])
    else if !ctx.streamStarted && jsWhitespace c then
      filterLoopF n ctx rest
    else
      if c = '\n' then
        let r := filterLoopF n { ctx with consecutiveNewlines := ctx.consecutiveNewlines + 1,
                                          lastCharWasSpace := false, streamStarted := true } rest
        (r.1, r.2.1, (if ctx.consecutiveNewlines + 1 ≤ 2 then [c] else []) ++ r.2.2)
      else if jsWhitespace c then
        let r := filterLoopF n { ctx with lastCharWasSpace := true, streamStarted := true } rest
        (r.1, r.2.1, (if ctx.lastCharWasSpace then [] else [' ']) ++ r.2.2)
      else
        let r := filterLoopF n { ctx with consecutiveNewlines := 0,
                                          lastCharWasSpace := false, streamStarted := true } rest
        (r.1, r.2.1, c :: r.2.2)

/-- The inner scanning loop, with exactly enough fuel. -/
def filterLoop (ctx : FilterCtx) (buf : Str) : FilterCtx × Str × Str :=
  filterLoopF buf.length ctx buf

/-- The full per-stream filter state: scanning context plus the carry-over
buffer (`buffer` in the source). -/
structure FeedState where
  ctx : FilterCtx
  buffer : Str
deriving DecidableEq, Repr

/-- The state at generator start (`client.ts` lines 607-614). -/
def initFeed : FeedState :=
  { ctx := { state := { isReasoning := false, isSer := false },
             consecutiveNewlines := 0, lastCharWasSpace := false, streamStarted := false },
    buffer := [] }

/-- Feeding one text fragment to the streaming filter: append to the
carry-over buffer, run the scanning loop, keep the unconsumed remainder
buffered.  Returns the new state and the emitted text. -/
def feedFragment (s : FeedState) (frag : Str) : FeedState × Str :=
  let r := filterLoop s.ctx (s.buffer ++ frag)
  ({ ctx := r.1, buffer := r.2.1 }, r.2.2)

/-- Feeding a whole sequence of fragments; the second component is the
concatenation of all emitted text (any text still buffered at end of stream
is discarded, as in the source). -/
def feedAll (s : FeedState) : List Str → FeedState × Str
  | [] => (s, [])
  | f :: fs =>
    let r := feedFragment s f
    let r' := feedAll r.1 fs
    (r'.1, r.2 ++ r'.2)

/-! ## Chunk data model (`types.ts`) -/

/-- TS `FunctionCall`. -/
structure FunctionCall where
  name : Str
  arguments : Str
deriving DecidableEq, Repr

/-- TS `ToolCall` (the `type` field is a plain string in the source). -/
structure ToolCall where
  id : Str
  type : Str
  function : FunctionCall
deriving DecidableEq, Repr

/-- TS `ChoiceDelta`.  Optional fields are `Option`; JavaScript `undefined`
is `none`. -/
structure ChoiceDelta where
  content : Option Str := none
  function_call : Option FunctionCall := none
  role : Option Str := none
  tool_calls : Option (List ToolCall) := none
deriving DecidableEq, Repr

/-- TS `ChatCompletionMessage`. -/
structure ChatCompletionMessage where
  role : Str
  content : Option Str := none
  function_call : Option FunctionCall := none
  tool_calls : Option (List ToolCall) := none
deriving DecidableEq, Repr

/-- TS `Choice`: used both for streaming chunks (`delta` populated) and for
non-streaming completions (`message` populated).  `logprobs` is an opaque
record in the source; it is modelled as an opaque string payload. -/
structure Choice where
  index : Nat
  message : Option ChatCompletionMessage := none
  delta : Option ChoiceDelta := none
  finish_reason : Option Str := none
  logprobs : Option Str := none
deriving DecidableEq, Repr

/-- TS `ChatCompletionChunk`. -/
structure ChatCompletionChunk where
  id : Str
  created : Nat
  model : Str
  choices : List Choice
  object : Str
  system_fingerprint : Option Str := none
deriving DecidableEq, Repr

/-- TS `CompletionUsage`. -/
structure CompletionUsage where
  completion_tokens : Nat
  prompt_tokens : Nat
  total_tokens : Nat
deriving DecidableEq, Repr

/-- TS `ChatCompletion`. -/
structure ChatCompletion where
  id : Str
  created : Nat
  model : Str
  choices : List Choice
  object : Str
  system_fingerprint : Option Str := none
  usage : Option CompletionUsage := none
deriving DecidableEq, Repr

/-- JavaScript truthiness of an optional string: `undefined` and the empty
string are falsy. -/
def truthyStr : Option Str → Bool
  | some (_ :: _) => true
  | _ => false

/-! ## The streaming generator (`createFilteredStreamGenerator`) -/

/-- Processing of one choice by the `for (const choice of chunk.choices)`
body (`client.ts` lines 620-733).  The filter state is the single
generator-level `state`/`buffer` group, threaded through every choice
regardless of its `index`.  Returns the updated state and the re-emitted
choice, if any. -/
def processChoice (s : FeedState) (ch : Choice) : FeedState × Option Choice :=
  match ch.delta with
  | some d =>
    match d.content with
    | some (x :: xs) =>
      let r := feedFragment s (x :: xs)
      if r.2 ≠ [] then
        (r.1, some { index := ch.index,
                     delta := some { content := some r.2, role := d.role,
                                     function_call := d.function_call,
                                     tool_calls := d.tool_calls },
                     finish_reason := ch.finish_reason, logprobs := ch.logprobs })
      else if truthyStr ch.finish_reason then
        (r.1, some { index := ch.index,
                     delta := some { content := none, role := d.role,
                                     function_call := d.function_call,
                                     tool_calls := d.tool_calls },
                     finish_reason := ch.finish_reason, logprobs := ch.logprobs })
      else (r.1, none)
    | _ => (s, some ch)
  | none => (s, some ch)

/-- Processing of all choices of one chunk, in order. -/
def processChoices (s : FeedState) : List Choice → FeedState × List Choice
  | [] => (s, [])
  | ch :: rest =>
    let r := processChoice s ch
    let r' := processChoices r.1 rest
    (r'.1, r.2.toList ++ r'.2)

/-- Processing of one chunk: the chunk is re-yielded exactly when
`shouldYieldChunk` was set, which happens exactly when some choice was pushed
onto `newChoices`. -/
def processChunk (s : FeedState) (c : ChatCompletionChunk) :
    FeedState × Option ChatCompletionChunk :=
  let r := processChoices s c.choices
  (r.1, if r.2.isEmpty then none else some { c with choices := r.2 })

/-- The whole filtered generator on a finite chunk stream. -/
def runFiltered (s : FeedState) : List ChatCompletionChunk →
    FeedState × List ChatCompletionChunk
  | [] => (s, [])
  | c :: cs =>
    let r := processChunk s c
    let r' := runFiltered r.1 cs
    (r'.1, r.2.toList ++ r'.2)

/-- The (truthy) content fragment a choice feeds to the filter, if any. -/
def choiceFrag (ch : Choice) : Option Str :=
  match ch.delta with
  | some d => match d.content with
    | some (x :: xs) => some (x :: xs)
    | _ => none
  | none => none

/-- The `delta.content` text a choice carries (empty when absent). -/
def choiceContent (ch : Choice) : Str :=
  match ch.delta with
  | some d => d.content.getD []
  | none => []

/-- The content fragments a chunk feeds to the filter, in choice order. -/
def chunkFrags (c : ChatCompletionChunk) : List Str :=
  c.choices.filterMap choiceFrag

/-- All content fragments of a chunk stream, in arrival order. -/
def fragmentsOf (chunks : List ChatCompletionChunk) : List Str :=
  (chunks.map chunkFrags).flatten

/-- The concatenated `delta.content` text carried by a chunk list. -/
def emittedContent (chunks : List ChatCompletionChunk) : Str :=
  (chunks.map fun c => (c.choices.map choiceContent).flatten).flatten

/-- The concatenated `delta.content` text carried by the choices of a given
index in a chunk list. -/
def emittedForIndex (i : Nat) (chunks : List ChatCompletionChunk) : Str :=
  (chunks.map fun c =>
    ((c.choices.filter fun ch => ch.index == i).map choiceContent).flatten).flatten

/-- The content fragments carried by the choices of a given index. -/
def fragmentsForIndex (i : Nat) (chunks : List ChatCompletionChunk) : List Str :=
  (chunks.map fun c =>
    (c.choices.filter fun ch => ch.index == i).filterMap choiceFrag).flatten

/-- A chunk opening a think block on choice index 0. -/
def c4chunkA : ChatCompletionChunk :=
  { id := "a".data, created := 0, model := "m".data,
    choices := [{ index := 0, delta := some { content := some "<think>".data } }],
    object := "chat.completion.chunk".data }

/-- A chunk carrying visible text on choice index 1. -/
def c4chunkB : ChatCompletionChunk :=
  { id := "b".data, created := 0, model := "m".data,
    choices := [{ index := 1, delta := some { content := some "visible".data } }],
    object := "chat.completion.chunk".data }

/-- Modelled from the spec (§4.3 chunk emission policy): the declarative
per-chunk emission rule for single-choice chunks.  A chunk whose
`delta.content` is absent (or empty, hence not text-bearing) passes through
unfiltered; a text-bearing chunk is re-emitted exactly when its filtered text
is non-empty or it carries a (truthy) finish reason, with metadata copied
through and the content replaced by the filtered text. -/
def specEmitChunk (s : FeedState) (c : ChatCompletionChunk) (ch : Choice) :
    FeedState × Option ChatCompletionChunk :=
  match ch.delta with
  | none => (s, some c)
  | some d =>
    match d.content with
    | some (x :: xs) =>
      let r := feedFragment s (x :: xs)
      if r.2 ≠ [] ∨ truthyStr ch.finish_reason then
        (r.1, some { c with choices :=
          [{ index := ch.index,
             delta := some { content := if r.2 ≠ [] then some r.2 else none,
                             role := d.role, function_call := d.function_call,
                             tool_calls := d.tool_calls },
             finish_reason := ch.finish_reason, logprobs := ch.logprobs }] })
      else (r.1, none)
    | _ => (s, some c)

/-- Modelled from the spec: the filtered stream of a single-choice chunk
sequence under the §4.3 emission policy, preserving arrival order and
suppressing only chunks that become empty without a terminal signal. -/
def specRun (s : FeedState) : List ChatCompletionChunk → List ChatCompletionChunk
  | [] => []
  | c :: cs =>
    match c.choices with
    | [ch] =>
      let r := specEmitChunk s c ch
      r.2.toList ++ specRun r.1 cs
    | _ => []

/-! ## The non-streaming filter (`filterThinkSerBlocks`, `filterCompletion`) -/

/-- Index of the first occurrence of `pat` in a string, if any. -/
def firstIdx (pat : Str) : Str → Option Nat
  | [] => if isPre pat [] then some 0 else none
  | c :: r => if isPre pat (c :: r) then some 0 else (firstIdx pat (r)).map (· + 1)

/-- Fuel-indexed global replacement of `openT…closeT` spans by nothing,
following the semantics of the lazy global regexes
`/<think>[\s\S]*?<\/think>/g` and `/<ser>[\s\S]*?<\/ser>/g`: leftmost match,
shortest body (earliest close tag), scanning resumes after the match; with no
close tag ahead there is no further match and the remainder is kept. -/
def removeBF (openT closeT : Str) : Nat → Str → Str
  | 0, s => s
  | _ + 1, [] => []
  | n + 1, c :: r =>
    if isPre openT (c :: r) then
      match firstIdx closeT ((c :: r).drop openT.length) with
      | some j => removeBF openT closeT n ((c :: r).drop (openT.length + j + closeT.length))
      | none => c :: r
    else c :: removeBF openT closeT n r

/-- Global removal of `openT…closeT` spans. -/
def removeB (openT closeT : Str) (s : Str) : Str :=
  removeBF openT closeT s.length s

/-- Fuel-indexed model of `/(\w)-\s*\n\s*(\w)/g` replaced by `$1$2`: a word
character, a hyphen, a whitespace run containing a newline, and a word
character collapse to the two word characters; scanning resumes after the
match. -/
def fixHyphensF : Nat → Str → Str
  | 0, s => s
  | _ + 1, [] => []
  | n + 1, c :: r =>
    if isWordChar c then
      match r with
      | '-' :: t =>
        if (t.takeWhile jsWhitespace).contains '\n' then
          match t.dropWhile jsWhitespace with
          | w2 :: rest => if isWordChar w2 then c :: w2 :: fixHyphensF n rest
                          else c :: fixHyphensF n r
          | [] => c :: fixHyphensF n r
        else c :: fixHyphensF n r
      | _ => c :: fixHyphensF n r
    else c :: fixHyphensF n r

/-- Rejoin hyphen-broken words (whole-text regex pass). -/
def fixHyphens (s : Str) : Str := fixHyphensF s.length s

/-- Model of `/\n{3,}/g` replaced by two newlines: each maximal newline run
keeps its first two newlines.  `run` counts the newlines already seen in the
current run. -/
def capNlGo (run : Nat) : Str → Str
  | [] => []
  | c :: r =>
    if c = '\n' then (if run < 2 then ['\n'] else []) ++ capNlGo (run + 1) r
    else c :: capNlGo 0 r

/-- Model of `/ {2,}/g` replaced by one space: each maximal run of plain
spaces keeps its first space. -/
def capSpGo (run : Nat) : Str → Str
  | [] => []
  | c :: r =>
    if c = ' ' then (if run = 0 then [' '] else []) ++ capSpGo (run + 1) r
    else c :: capSpGo 0 r

/-- JavaScript `String.prototype.trim`. -/
def trimStr (s : Str) : Str :=
  ((s.dropWhile jsWhitespace).reverse.dropWhile jsWhitespace).reverse

/-- The whole-text pipeline of `filterThinkSerBlocks` on a non-empty text:
delete think spans, delete ser spans, rejoin hyphen-broken words, cap newline
runs at two, collapse space runs, trim. -/
def pipelineStr (t : Str) : Str :=
  trimStr (capSpGo 0 (capNlGo 0 (fixHyphens
    (removeB openSer closeSer (removeB openThink closeThink t)))))

/-- TS `filterThinkSerBlocks` (`client.ts` lines 745-763); `if (!text) return
text` keeps `undefined` and the empty string unchanged. -/
def filterThinkSerBlocks : Option Str → Option Str
  | none => none
  | some [] => some []
  | some (c :: r) => some (pipelineStr (c :: r))

/-- TS `filterCompletion` (`client.ts` lines 583-602): map each choice,
filtering `message.content` when it is truthy and leaving the choice
untouched otherwise; every other completion field is spread through. -/
def filterCompletion (completion : ChatCompletion) : ChatCompletion :=
  { completion with choices := completion.choices.map fun choice =>
      match choice.message with
      | some m =>
        match m.content with
        | some (x :: xs) =>
          { choice with message := some { m with content := filterThinkSerBlocks (some (x :: xs)) } }
        | _ => choice
      | none => choice }

/-! ## Error taxonomy (`errors.ts`)

One constructor per concrete error class reachable from the streaming and
classification code.  `haiError` is the base class `HAIError` itself (the
generic error); the hierarchy contains no stream-decode-specific class. -/

/-- A JavaScript number that may be `NaN` (result of `parseInt`). -/
inductive JsNum where
  | nan
  | num (n : Int)
deriving DecidableEq, Repr

/-- The concrete error kinds of `errors.ts` used by the stream decoder and
the classifier.  Each carries the distinguishing payload set by its
constructor. -/
inductive ErrK where
  | haiError (message : Str)
  | invalidAPIKey
  | invalidModel (model : Str)
  | invalidRequest (message : Str)
  | tooManyRequests (retryAfter : Option JsNum)
  | serviceUnavailable
  | serverError (message : Str)
  | contentFilter (message : Str)
  | apiError (message : Str) (code : Option Str) (etype : Option Str)
deriving DecidableEq, Repr

/-- Whether an error is (exactly) the generic base class `HAIError`. -/
def ErrK.isGenericBase : ErrK → Bool
  | .haiError _ => true
  | _ => false

/-! ## The SSE event framer (`handleStreamResponse`)

The JSON decoder is an external builtin (`JSON.parse`); it is a parameter
`decode` of the framer, returning either a decoded event or the string form
of the thrown exception. -/

/-- How a stream ends early: the `data: [DONE]` sentinel, or the error thrown
on a malformed payload. -/
inductive FrameTerm where
  | done
  | failed (e : ErrK)
deriving DecidableEq, Repr

/-- The `data: ` prefix tested with `line.startsWith('data: ')`. -/
def dataPfx : Str := "data: ".data

/-- The terminal sentinel compared against `line.trim()`. -/
def doneLine : Str := "data: [DONE]".data

/-- JavaScript `chunk.split('\n')`. -/
def splitNl : Str → List Str
  | [] => [[]]
  | c :: r =>
    if c = '\n' then [] :: splitNl r
    else match splitNl r with
      | h :: t => (c :: h) :: t
      | [] => [[c]]

/-- The `for (const line of lines)` body of `handleStreamResponse`
(`client.ts` lines 515-576) over a list of lines: blank lines skipped, the
sentinel ends the stream, `data: ` lines decoded (a decode failure throws
`new HAIError('Error parsing stream: ...')`), all other lines ignored. -/
def processLines {α : Type} (decode : Str → Except Str α) : List Str → List α × Option FrameTerm
  | [] => ([], none)
  | l :: rest =>
    if trimStr l = [] then processLines decode rest
    else if trimStr l = doneLine then ([], some .done)
    else if isPre dataPfx l then
      match decode (l.drop 6) with
      | .ok e =>
        let r := processLines decode rest
        (e :: r.1, r.2)
      | .error msg => ([], some (.failed (.haiError ("Error parsing stream: ".data ++ msg))))
    else processLines decode rest

/-- The outer read loop of `handleStreamResponse`: each underlying read is
split on newlines **with no carry-over between reads** and its lines
processed; a sentinel or error inside one read stops the remaining reads. -/
def frameReads {α : Type} (decode : Str → Except Str α) : List Str → List α × Option FrameTerm
  | [] => ([], none)
  | r :: rs =>
    let p := processLines decode (splitNl r)
    match p.2 with
    | some t => (p.1, some t)
    | none =>
      let p' := frameReads decode rs
      (p.1 ++ p'.1, p'.2)

/-- The event, if any, one line contributes (used to state termination
behaviour of `processLines`). -/
def lineEvent {α : Type} (decode : Str → Except Str α) (l : Str) : Option α :=
  if trimStr l = [] then none
  else if trimStr l = doneLine then none
  else if isPre dataPfx l then (decode (l.drop 6)).toOption
  else none

/-- The termination, if any, one line causes. -/
def lineTerm {α : Type} (decode : Str → Except Str α) (l : Str) : Option FrameTerm :=
  if trimStr l = [] then none
  else if trimStr l = doneLine then some .done
  else if isPre dataPfx l then
    match decode (l.drop 6) with
    | .ok _ => none
    | .error msg => some (.failed (.haiError ("Error parsing stream: ".data ++ msg)))
  else none

/-! ## The error classifier (`handleErrorResponse`) -/

/-- Lowercased header map, as produced by `extractHeaders`. -/
abbrev Headers := List (Str × Str)

/-- First value bound to a key in a header map. -/
def lookupHdr (k : Str) : Headers → Option Str
  | [] => none
  | (k', v) :: r => if k' = k then some v else lookupHdr k r

/-- ASCII lowering, the effect of `toLowerCase()` on the messages involved. -/
def toLowerStr (s : Str) : Str := s.map Char.toLower

/-- `haystack.includes(needle)`. -/
def containsSub (pat s : Str) : Bool := (firstIdx pat s).isSome

/-- The single-quote character. -/
def squote : Char := Char.ofNat 39

/-- The characters before the first single quote, if a quote occurs. -/
def upToQuote : Str → Option Str
  | [] => none
  | c :: r => if c = squote then some [] else (upToQuote r).map (c :: ·)

/-- The capture of the first match of the regex quoting heuristic
`/'([^']*)'/`: the text between the first two single quotes, if the message
has at least two. -/
def firstQuoted : Str → Option Str
  | [] => none
  | c :: r => if c = squote then upToQuote r else firstQuoted r

/-- The model name extracted from a 400 message:
`match ? match[1] : 'Unknown model'`. -/
def extractModel (msg : Str) : Str :=
  match firstQuoted msg with
  | some m => m
  | none => "Unknown model".data

/-- Leading decimal digits as a natural number. -/
def digitsToNat (ds : Str) : Nat :=
  ds.foldl (fun n c => 10 * n + (c.toNat - '0'.toNat)) 0

/-- JavaScript `parseInt(s, 10)`: skip leading whitespace, optional sign,
read leading digits, `NaN` when no digits; trailing garbage ignored.
`parseInt` never throws, so the `try`/`catch` around it in
`getRetryAfterFromHeaders` is dead code. -/
def jsParseInt (s : Str) : JsNum :=
  let t := s.dropWhile jsWhitespace
  match t with
  | '-' :: r =>
    let d := r.takeWhile Char.isDigit
    if d = [] then .nan else .num (-(digitsToNat d : Int))
  | '+' :: r =>
    let d := r.takeWhile Char.isDigit
    if d = [] then .nan else .num (digitsToNat d : Int)
  | r =>
    let d := r.takeWhile Char.isDigit
    if d = [] then .nan else .num (digitsToNat d : Int)

/-- `RateLimitError.getRetryAfterFromHeaders`: `parseInt` of the
`retry-after` header when present, absent otherwise. -/
def getRetryAfterFromHeaders (headers : Headers) : Option JsNum :=
  match lookupHdr "retry-after".data headers with
  | some v => some (jsParseInt v)
  | none => none

/-- The status dispatch of `handleErrorResponse` (`client.ts` lines 327-347),
after the error envelope has been reduced to a message, optional type and
optional code. -/
def classify (status : Nat) (msg : Str) (etype ecode : Option Str)
    (headers : Headers) : ErrK :=
  if status = 401 then .invalidAPIKey
  else if status = 400 then
    if containsSub "model".data (toLowerStr msg) then .invalidModel (extractModel msg)
    else .invalidRequest msg
  else if status = 429 then .tooManyRequests (getRetryAfterFromHeaders headers)
  else if status = 503 then .serviceUnavailable
  else if 500 ≤ status then .serverError msg
  else if (match etype with
           | some t => containsSub "content_filter".data (toLowerStr t)
           | none => false) then .contentFilter msg
  else .apiError msg ecode etype

/-! ## Well-formed tagged texts (for the streaming / whole-text comparison) -/

/-- A segment of a tagged text: visible text, a complete think block, or a
complete ser block. -/
inductive Seg where
  | txt (s : Str)
  | think (body : Str)
  | ser (body : Str)
deriving DecidableEq, Repr

/-- The rendering of a segment back to raw text. -/
def renderSeg : Seg → Str
  | .txt s => s
  | .think b => openThink ++ b ++ closeThink
  | .ser b => openSer ++ b ++ closeSer

/-- The raw text of a segment list. -/
def render (l : List Seg) : Str := (l.map renderSeg).flatten

/-- The visible text of a segment list: the concatenation of its `txt`
segments. -/
def visible : List Seg → Str
  | [] => []
  | .txt s :: r => s ++ visible r
  | .think _ :: r => visible r
  | .ser _ :: r => visible r

/-- Side condition for the streaming / whole-text comparison: visible
segments contain neither `<` nor whitespace, block bodies contain no `<`. -/
def okSeg : Seg → Bool
  | .txt s => s.all fun c => !(c == '<') && !jsWhitespace c
  | .think b => b.all fun c => !(c == '<')
  | .ser b => b.all fun c => !(c == '<')

/-- All segments well formed. -/
def okSegs (l : List Seg) : Bool := l.all okSeg

/-- Whether a segment is a think block. -/
def isThinkSeg : Seg → Bool
  | .think _ => true
  | _ => false

/-- Whether a segment is a ser block. -/
def isSerSeg : Seg → Bool
  | .ser _ => true
  | _ => false

/-- A single-choice stream: a role-only chunk, a think-only chunk whose text
filters to nothing, and a finish-reason chunk. -/
def c6chunks : List ChatCompletionChunk :=
  [ { id := "f".data, created := 0, model := "m".data,
      choices := [{ index := 0, delta := some { role := some "assistant".data } }],
      object := "chat.completion.chunk".data },
    { id := "f".data, created := 1, model := "m".data,
      choices := [{ index := 0, delta := some { content := some "<think>hidden".data } }],
      object := "chat.completion.chunk".data },
    { id := "f".data, created := 2, model := "m".data,
      choices := [{ index := 0, delta := some { content := some "hidden too".data },
                    finish_reason := some "stop".data }],
      object := "chat.completion.chunk".data } ]

/-- Resuming an interrupted scanning loop on the unconsumed remainder
followed by further input, accumulating the output. -/
def resumeLoop (r : FilterCtx × Str × Str) (extra : Str) : FilterCtx × Str × Str :=
  let q := filterLoop r.1 (r.2.1 ++ extra)
  (q.1, q.2.1, r.2.2 ++ q.2.2)

/-- The scanning context is outside both block kinds. -/
def plainCtx (ctx : FilterCtx) : Prop :=
  ctx.state.isReasoning = false ∧ ctx.state.isSer = false

/-! # Theorems -/

theorem isPre_append {p s : Str} (t : Str) (h : isPre p s = true) :
    isPre p (s ++ t) = true := by
  induction p generalizing s with
  | nil => rfl
  | cons a as ih =>
    cases s with
    | nil => simp [isPre] at h
    | cons b bs =>
      simp only [isPre, Bool.and_eq_true] at h ⊢
      exact ⟨h.1, ih h.2⟩

theorem isPre_length {p s : Str} (h : isPre p s = true) : p.length ≤ s.length := by
  induction p generalizing s with
  | nil => simp
  | cons a as ih =>
    cases s with
    | nil => simp [isPre] at h
    | cons b bs =>
      simp only [isPre, Bool.and_eq_true] at h
      simpa using ih h.2

theorem isPre_self_append (t r : Str) : isPre t (t ++ r) = true := by
  induction t with
  | nil => rfl
  | cons a as ih => simp [isPre, ih]

theorem isPre_append_left {p s t : Str} (h : isPre (s ++ t) p = true) :
    isPre s p = true := by
  induction s generalizing p with
  | nil => rfl
  | cons a as ih =>
    cases p with
    | nil => simp [isPre] at h
    | cons b bs =>
      simp only [List.cons_append, isPre, Bool.and_eq_true] at h ⊢
      exact ⟨h.1, ih h.2⟩

theorem not_isPre_append {t b : Str} (e : Str) (h1 : isPre t b = false)
    (h2 : isPre b t = false) : isPre t (b ++ e) = false := by
  induction t generalizing b with
  | nil => simp [isPre] at h1
  | cons x ts ih =>
    cases b with
    | nil => simp [isPre] at h2
    | cons y bs =>
      simp only [isPre, Bool.and_eq_false_iff] at h1 h2 ⊢
      rcases h1 with h1 | h1
      · exact Or.inl h1
      · rcases h2 with h2 | h2
        · refine Or.inl ?_
          cases hxy : x == y with
          | false => rfl
          | true => simp [BEq.comm] at hxy; simp [hxy] at h2
        · exact Or.inr (ih h1 h2)

set_option maxHeartbeats 1600000 in
theorem filterLoopF_irr (f₁ : Nat) : ∀ (f₂ : Nat) (ctx : FilterCtx) (buf : Str),
    buf.length ≤ f₁ → buf.length ≤ f₂ →
    filterLoopF f₁ ctx buf = filterLoopF f₂ ctx buf := by
  induction f₁ with
  | zero =>
    intro f₂ ctx buf h1 _
    have hb : buf = [] := List.length_eq_zero.mp (Nat.le_zero.mp h1)
    subst hb
    cases f₂ <;> rfl
  | succ n ih =>
    intro f₂ ctx buf h1 h2
    cases buf with
    | nil => cases f₂ <;> rfl
    | cons c rest =>
      cases f₂ with
      | zero => simp at h2
      | succ m =>
        have hr : rest.length ≤ n := by simpa using h1
        have hr' : rest.length ≤ m := by simpa using h2
        have hd : ∀ k, 0 < k → ((c :: rest).drop k).length ≤ n := by
          intro k hk
          simp only [List.length_drop]
          simp only [List.length_cons]
          omega
        have hd' : ∀ k, 0 < k → ((c :: rest).drop k).length ≤ m := by
          intro k hk
          simp only [List.length_drop]
          simp only [List.length_cons]
          omega
        simp only [filterLoopF]
        split_ifs <;>
          first
          | rfl
          | (exact ih _ _ _ (hd _ (by omega)) (hd' _ (by omega)))
          | (exact ih _ _ _ hr hr')
          | (rw [ih m _ rest hr hr'])

set_option maxHeartbeats 1600000 in
theorem filterLoop_cons (ctx : FilterCtx) (c : Char) (rest : Str) :
    filterLoop ctx (c :: rest) =
    if ctx.state.isReasoning then
      if isPre closeThink (c :: rest) then
        filterLoop { ctx with state := { ctx.state with isReasoning := false },
                              lastCharWasSpace := true } ((c :: rest).drop 8)
      else if isPre (c :: rest) closeThink then (ctx, c :: rest, [])
      else filterLoop ctx rest
    else if ctx.state.isSer then
      if isPre closeSer (c :: rest) then
        filterLoop { ctx with state := { ctx.state with isSer := false },
                              lastCharWasSpace := true } ((c :: rest).drop 6)
      else if isPre (c :: rest) closeSer then (ctx, c :: rest, [])
      else filterLoop ctx rest
    else if isPre openThink (c :: rest) then
      filterLoop { ctx with state := { ctx.state with isReasoning := true } } ((c :: rest).drop 7)
    else if isPre openSer (c :: rest) then
      filterLoop { ctx with state := { ctx.state with isSer := true } } ((c :: rest).drop 5)
    else if isPre (c :: rest) openThink || isPre (c :: rest) openSer then (ctx, c :: rest, [])
    else if !ctx.streamStarted && jsWhitespace c then
      filterLoop ctx rest
    else
      if c = '\n' then
        let r := filterLoop { ctx with consecutiveNewlines := ctx.consecutiveNewlines + 1,
                                       lastCharWasSpace := false, streamStarted := true } rest
        (r.1, r.2.1, (if ctx.consecutiveNewlines + 1 ≤ 2 then [c] else []) ++ r.2.2)
      else if jsWhitespace c then
        let r := filterLoop { ctx with lastCharWasSpace := true, streamStarted := true } rest
        (r.1, r.2.1, (if ctx.lastCharWasSpace then [] else [' ']) ++ r.2.2)
      else
        let r := filterLoop { ctx with consecutiveNewlines := 0,
                                       lastCharWasSpace := false, streamStarted := true } rest
        (r.1, r.2.1, c :: r.2.2) := by
  show filterLoopF (rest.length + 1) ctx (c :: rest) = _
  have hd : ∀ (k : Nat) (ctx' : FilterCtx), 0 < k →
      filterLoopF rest.length ctx' ((c :: rest).drop k) =
      filterLoop ctx' ((c :: rest).drop k) := by
    intro k ctx' hk
    refine filterLoopF_irr _ _ _ _ ?_ ?_ <;>
      simp only [List.length_drop, List.length_cons] <;> omega
  simp only [filterLoopF, filterLoop]
  split_ifs <;>
    first
    | rfl
    | (exact hd _ _ (by omega))

theorem stepThinkClose {ctx : FilterCtx} {c : Char} {rest : Str}
    (hR : ctx.state.isReasoning = true) (hC : isPre closeThink (c :: rest) = true) :
    filterLoop ctx (c :: rest) =
      filterLoop { ctx with state := { ctx.state with isReasoning := false },
                            lastCharWasSpace := true } ((c :: rest).drop 8) := by
  rw [filterLoop_cons, if_pos hR, if_pos hC]

theorem stepThinkBreak {ctx : FilterCtx} {c : Char} {rest : Str}
    (hR : ctx.state.isReasoning = true) (h1 : isPre closeThink (c :: rest) = false)
    (h2 : isPre (c :: rest) closeThink = true) :
    filterLoop ctx (c :: rest) = (ctx, c :: rest, []) := by
  rw [filterLoop_cons, if_pos hR, if_neg (by simp [h1]), if_pos h2]

theorem stepThinkSkip {ctx : FilterCtx} {c : Char} {rest : Str}
    (hR : ctx.state.isReasoning = true) (h1 : isPre closeThink (c :: rest) = false)
    (h2 : isPre (c :: rest) closeThink = false) :
    filterLoop ctx (c :: rest) = filterLoop ctx rest := by
  rw [filterLoop_cons, if_pos hR, if_neg (by simp [h1]), if_neg (by simp [h2])]

theorem stepSerClose {ctx : FilterCtx} {c : Char} {rest : Str}
    (hR : ctx.state.isReasoning = false) (hS : ctx.state.isSer = true)
    (hC : isPre closeSer (c :: rest) = true) :
    filterLoop ctx (c :: rest) =
      filterLoop { ctx with state := { ctx.state with isSer := false },
                            lastCharWasSpace := true } ((c :: rest).drop 6) := by
  rw [filterLoop_cons, if_neg (by simp [hR]), if_pos hS, if_pos hC]

theorem stepSerBreak {ctx : FilterCtx} {c : Char} {rest : Str}
    (hR : ctx.state.isReasoning = false) (hS : ctx.state.isSer = true)
    (h1 : isPre closeSer (c :: rest) = false) (h2 : isPre (c :: rest) closeSer = true) :
    filterLoop ctx (c :: rest) = (ctx, c :: rest, []) := by
  rw [filterLoop_cons, if_neg (by simp [hR]), if_pos hS, if_neg (by simp [h1]), if_pos h2]

theorem stepSerSkip {ctx : FilterCtx} {c : Char} {rest : Str}
    (hR : ctx.state.isReasoning = false) (hS : ctx.state.isSer = true)
    (h1 : isPre closeSer (c :: rest) = false) (h2 : isPre (c :: rest) closeSer = false) :
    filterLoop ctx (c :: rest) = filterLoop ctx rest := by
  rw [filterLoop_cons, if_neg (by simp [hR]), if_pos hS, if_neg (by simp [h1]),
      if_neg (by simp [h2])]

theorem stepOpenThink {ctx : FilterCtx} {c : Char} {rest : Str}
    (hR : ctx.state.isReasoning = false) (hS : ctx.state.isSer = false)
    (hO : isPre openThink (c :: rest) = true) :
    filterLoop ctx (c :: rest) =
      filterLoop { ctx with state := { ctx.state with isReasoning := true } }
        ((c :: rest).drop 7) := by
  rw [filterLoop_cons, if_neg (by simp [hR]), if_neg (by simp [hS]), if_pos hO]

theorem stepOpenSer {ctx : FilterCtx} {c : Char} {rest : Str}
    (hR : ctx.state.isReasoning = false) (hS : ctx.state.isSer = false)
    (hOT : isPre openThink (c :: rest) = false) (hO : isPre openSer (c :: rest) = true) :
    filterLoop ctx (c :: rest) =
      filterLoop { ctx with state := { ctx.state with isSer := true } }
        ((c :: rest).drop 5) := by
  rw [filterLoop_cons, if_neg (by simp [hR]), if_neg (by simp [hS]),
      if_neg (by simp [hOT]), if_pos hO]

theorem stepTagBreak {ctx : FilterCtx} {c : Char} {rest : Str}
    (hR : ctx.state.isReasoning = false) (hS : ctx.state.isSer = false)
    (hOT : isPre openThink (c :: rest) = false) (hOS : isPre openSer (c :: rest) = false)
    (hB : isPre (c :: rest) openThink = true ∨ isPre (c :: rest) openSer = true) :
    filterLoop ctx (c :: rest) = (ctx, c :: rest, []) := by
  rw [filterLoop_cons, if_neg (by simp [hR]), if_neg (by simp [hS]),
      if_neg (by simp [hOT]), if_neg (by simp [hOS]), if_pos (by
        rcases hB with hB | hB <;> simp [hB])]

theorem stepLeadWs {ctx : FilterCtx} {c : Char} {rest : Str}
    (hR : ctx.state.isReasoning = false) (hS : ctx.state.isSer = false)
    (hOT : isPre openThink (c :: rest) = false) (hOS : isPre openSer (c :: rest) = false)
    (hB1 : isPre (c :: rest) openThink = false) (hB2 : isPre (c :: rest) openSer = false)
    (hSS : ctx.streamStarted = false) (hW : jsWhitespace c = true) :
    filterLoop ctx (c :: rest) = filterLoop ctx rest := by
  rw [filterLoop_cons, if_neg (by simp [hR]), if_neg (by simp [hS]),
      if_neg (by simp [hOT]), if_neg (by simp [hOS]), if_neg (by simp [hB1, hB2]),
      if_pos (by simp [hSS, hW])]

theorem stepNl {ctx : FilterCtx} {c : Char} {rest : Str}
    (hR : ctx.state.isReasoning = false) (hS : ctx.state.isSer = false)
    (hOT : isPre openThink (c :: rest) = false) (hOS : isPre openSer (c :: rest) = false)
    (hB1 : isPre (c :: rest) openThink = false) (hB2 : isPre (c :: rest) openSer = false)
    (hGo : ctx.streamStarted = true ∨ jsWhitespace c = false) (hc : c = '\n') :
    filterLoop ctx (c :: rest) =
      ((filterLoop { ctx with consecutiveNewlines := ctx.consecutiveNewlines + 1, lastCharWasSpace := false, streamStarted := true } rest).1, (filterLoop { ctx with consecutiveNewlines := ctx.consecutiveNewlines + 1, lastCharWasSpace := false, streamStarted := true } rest).2.1, (if ctx.consecutiveNewlines + 1 ≤ 2 then [c] else []) ++ (filterLoop { ctx with consecutiveNewlines := ctx.consecutiveNewlines + 1, lastCharWasSpace := false, streamStarted := true } rest).2.2) := by
  rw [filterLoop_cons, if_neg (by simp [hR]), if_neg (by simp [hS]),
      if_neg (by simp [hOT]), if_neg (by simp [hOS]), if_neg (by simp [hB1, hB2]),
      if_neg (by rcases hGo with hGo | hGo <;> simp [hGo]), if_pos hc]

theorem stepSpace {ctx : FilterCtx} {c : Char} {rest : Str}
    (hR : ctx.state.isReasoning = false) (hS : ctx.state.isSer = false)
    (hOT : isPre openThink (c :: rest) = false) (hOS : isPre openSer (c :: rest) = false)
    (hB1 : isPre (c :: rest) openThink = false) (hB2 : isPre (c :: rest) openSer = false)
    (hGo : ctx.streamStarted = true ∨ jsWhitespace c = false)
    (hc : ¬ c = '\n') (hW : jsWhitespace c = true) :
    filterLoop ctx (c :: rest) =
      ((filterLoop { ctx with lastCharWasSpace := true, streamStarted := true } rest).1, (filterLoop { ctx with lastCharWasSpace := true, streamStarted := true } rest).2.1, (if ctx.lastCharWasSpace then [] else [' ']) ++ (filterLoop { ctx with lastCharWasSpace := true, streamStarted := true } rest).2.2) := by
  rw [filterLoop_cons, if_neg (by simp [hR]), if_neg (by simp [hS]),
      if_neg (by simp [hOT]), if_neg (by simp [hOS]), if_neg (by simp [hB1, hB2]),
      if_neg (by rcases hGo with hGo | hGo <;> simp [hGo]), if_neg hc, if_pos hW]

theorem stepChar {ctx : FilterCtx} {c : Char} {rest : Str}
    (hR : ctx.state.isReasoning = false) (hS : ctx.state.isSer = false)
    (hOT : isPre openThink (c :: rest) = false) (hOS : isPre openSer (c :: rest) = false)
    (hB1 : isPre (c :: rest) openThink = false) (hB2 : isPre (c :: rest) openSer = false)
    (hW : jsWhitespace c = false) :
    filterLoop ctx (c :: rest) =
      ((filterLoop { ctx with consecutiveNewlines := 0, lastCharWasSpace := false, streamStarted := true } rest).1, (filterLoop { ctx with consecutiveNewlines := 0, lastCharWasSpace := false, streamStarted := true } rest).2.1, c :: (filterLoop { ctx with consecutiveNewlines := 0, lastCharWasSpace := false, streamStarted := true } rest).2.2) := by
  have hc : ¬ c = '\n' := by
    intro hh
    rw [hh] at hW
    simp [jsWhitespace] at hW
  rw [filterLoop_cons, if_neg (by simp [hR]), if_neg (by simp [hS]),
      if_neg (by simp [hOT]), if_neg (by simp [hOS]), if_neg (by simp [hB1, hB2]),
      if_neg (by simp [hW]), if_neg hc, if_neg (by simp [hW])]

theorem loop_append (n : Nat) : ∀ (buf : Str), buf.length ≤ n → ∀ (ctx : FilterCtx) (extra : Str),
    filterLoop ctx (buf ++ extra) = resumeLoop (filterLoop ctx buf) extra := by
  induction n with
  | zero =>
    intro buf h ctx extra
    have hb : buf = [] := List.length_eq_zero.mp (Nat.le_zero.mp h)
    subst hb
    rfl
  | succ n ih =>
    intro buf h ctx extra
    cases buf with
    | nil => rfl
    | cons c rest =>
      have hrest : rest.length ≤ n := by simpa using h
      have hdl : ∀ k : Nat, 0 < k → ((c :: rest).drop k).length ≤ n := by
        intro k hk
        simp only [List.length_drop, List.length_cons]
        simp only [List.length_cons] at h
        omega
      have hleft : ∀ {p : Str}, isPre (c :: rest) p = false →
          isPre (c :: (rest ++ extra)) p = false := by
        intro p hp
        cases hh : isPre (c :: (rest ++ extra)) p with
        | false => rfl
        | true =>
          have : isPre (c :: rest) p = true := isPre_append_left (p := p) (t := extra)
            (by rw [List.cons_append]; exact hh)
          rw [hp] at this
          cases this
      rw [List.cons_append]
      by_cases hR : ctx.state.isReasoning = true
      · by_cases hC1 : isPre closeThink (c :: rest) = true
        · have hC1' : isPre closeThink (c :: (rest ++ extra)) = true := by
            rw [← List.cons_append]
            exact isPre_append extra hC1
          have h8 : 8 ≤ (c :: rest).length := by
            have hl := isPre_length hC1
            rw [show closeThink.length = 8 from rfl] at hl
            exact hl
          rw [stepThinkClose hR hC1', stepThinkClose hR hC1]
          have hdrop : (c :: (rest ++ extra)).drop 8 = (c :: rest).drop 8 ++ extra := by
            rw [← List.cons_append]
            exact List.drop_append_of_le_length h8
          rw [hdrop]
          exact ih _ (hdl 8 (by omega)) _ _
        · by_cases hC2 : isPre (c :: rest) closeThink = true
          · rw [stepThinkBreak hR (by simpa using hC1) hC2]
            rfl
          · have hC2f : isPre (c :: rest) closeThink = false := by simpa using hC2
            have hC1f : isPre closeThink (c :: rest) = false := by simpa using hC1
            have hC1' : isPre closeThink (c :: (rest ++ extra)) = false := by
              rw [← List.cons_append]
              exact not_isPre_append extra hC1f hC2f
            rw [stepThinkSkip hR hC1' (hleft hC2f), stepThinkSkip hR hC1f hC2f]
            exact ih _ hrest _ _
      · have hRf : ctx.state.isReasoning = false := by simpa using hR
        by_cases hS : ctx.state.isSer = true
        · by_cases hC1 : isPre closeSer (c :: rest) = true
          · have hC1' : isPre closeSer (c :: (rest ++ extra)) = true := by
              rw [← List.cons_append]
              exact isPre_append extra hC1
            have h6 : 6 ≤ (c :: rest).length := by
              have hl := isPre_length hC1
              rw [show closeSer.length = 6 from rfl] at hl
              exact hl
            rw [stepSerClose hRf hS hC1', stepSerClose hRf hS hC1]
            have hdrop : (c :: (rest ++ extra)).drop 6 = (c :: rest).drop 6 ++ extra := by
              rw [← List.cons_append]
              exact List.drop_append_of_le_length h6
            rw [hdrop]
            exact ih _ (hdl 6 (by omega)) _ _
          · by_cases hC2 : isPre (c :: rest) closeSer = true
            · rw [stepSerBreak hRf hS (by simpa using hC1) hC2]
              rfl
            · have hC2f : isPre (c :: rest) closeSer = false := by simpa using hC2
              have hC1f : isPre closeSer (c :: rest) = false := by simpa using hC1
              have hC1' : isPre closeSer (c :: (rest ++ extra)) = false := by
                rw [← List.cons_append]
                exact not_isPre_append extra hC1f hC2f
              rw [stepSerSkip hRf hS hC1' (hleft hC2f), stepSerSkip hRf hS hC1f hC2f]
              exact ih _ hrest _ _
        · have hSf : ctx.state.isSer = false := by simpa using hS
          by_cases hOT : isPre openThink (c :: rest) = true
          · have hOT' : isPre openThink (c :: (rest ++ extra)) = true := by
              rw [← List.cons_append]
              exact isPre_append extra hOT
            have h7 : 7 ≤ (c :: rest).length := by
              have hl := isPre_length hOT
              rw [show openThink.length = 7 from rfl] at hl
              exact hl
            rw [stepOpenThink hRf hSf hOT', stepOpenThink hRf hSf hOT]
            have hdrop : (c :: (rest ++ extra)).drop 7 = (c :: rest).drop 7 ++ extra := by
              rw [← List.cons_append]
              exact List.drop_append_of_le_length h7
            rw [hdrop]
            exact ih _ (hdl 7 (by omega)) _ _
          · have hOTf : isPre openThink (c :: rest) = false := by simpa using hOT
            by_cases hOS : isPre openSer (c :: rest) = true
            · have hOS' : isPre openSer (c :: (rest ++ extra)) = true := by
                rw [← List.cons_append]
                exact isPre_append extra hOS
              have h5 : 5 ≤ (c :: rest).length := by
                have hl := isPre_length hOS
                rw [show openSer.length = 5 from rfl] at hl
                exact hl
              have hOT' : isPre openThink (c :: (rest ++ extra)) = false := by
                have hc : c = '<' := by
                  cases rest with
                  | nil => simp [openSer, isPre] at hOS
                  | cons d r₂ =>
                    simp only [openSer, isPre, Bool.and_eq_true, beq_iff_eq] at hOS
                    exact hOS.1.symm
                have hd : ∃ r₂, rest = 's' :: r₂ := by
                  cases rest with
                  | nil => simp [openSer, isPre] at hOS
                  | cons d r₂ =>
                    simp only [openSer, isPre, Bool.and_eq_true, beq_iff_eq] at hOS
                    exact ⟨r₂, by rw [← hOS.2.1]⟩
                obtain ⟨r₂, hr₂⟩ := hd
                subst hr₂ hc
                simp [openThink, isPre]
              rw [stepOpenSer hRf hSf hOT' hOS', stepOpenSer hRf hSf hOTf hOS]
              have hdrop : (c :: (rest ++ extra)).drop 5 = (c :: rest).drop 5 ++ extra := by
                rw [← List.cons_append]
                exact List.drop_append_of_le_length h5
              rw [hdrop]
              exact ih _ (hdl 5 (by omega)) _ _
            · have hOSf : isPre openSer (c :: rest) = false := by simpa using hOS
              by_cases hB : isPre (c :: rest) openThink = true ∨ isPre (c :: rest) openSer = true
              · rw [stepTagBreak hRf hSf hOTf hOSf hB]
                rfl
              · have hB1 : isPre (c :: rest) openThink = false := by
                  cases hh : isPre (c :: rest) openThink with
                  | false => rfl
                  | true => exact absurd (Or.inl hh) hB
                have hB2 : isPre (c :: rest) openSer = false := by
                  cases hh : isPre (c :: rest) openSer with
                  | false => rfl
                  | true => exact absurd (Or.inr hh) hB
                have hOT' : isPre openThink (c :: (rest ++ extra)) = false := by
                  rw [← List.cons_append]
                  exact not_isPre_append extra hOTf hB1
                have hOS' : isPre openSer (c :: (rest ++ extra)) = false := by
                  rw [← List.cons_append]
                  exact not_isPre_append extra hOSf hB2
                by_cases hW : jsWhitespace c = true
                · by_cases hSS : ctx.streamStarted = true
                  · by_cases hc : c = '\n'
                    · rw [stepNl hRf hSf hOT' hOS' (hleft hB1) (hleft hB2) (Or.inl hSS) hc,
                          stepNl hRf hSf hOTf hOSf hB1 hB2 (Or.inl hSS) hc]
                      rw [ih rest hrest _ extra]
                      simp [resumeLoop, List.append_assoc]
                    · rw [stepSpace hRf hSf hOT' hOS' (hleft hB1) (hleft hB2) (Or.inl hSS) hc hW,
                          stepSpace hRf hSf hOTf hOSf hB1 hB2 (Or.inl hSS) hc hW]
                      rw [ih rest hrest _ extra]
                      simp [resumeLoop, List.append_assoc]
                  · have hSSf : ctx.streamStarted = false := by simpa using hSS
                    rw [stepLeadWs hRf hSf hOT' hOS' (hleft hB1) (hleft hB2) hSSf hW,
                        stepLeadWs hRf hSf hOTf hOSf hB1 hB2 hSSf hW]
                    exact ih _ hrest _ _
                · have hWf : jsWhitespace c = false := by simpa using hW
                  rw [stepChar hRf hSf hOT' hOS' (hleft hB1) (hleft hB2) hWf,
                      stepChar hRf hSf hOTf hOSf hB1 hB2 hWf]
                  rw [ih rest hrest _ extra]
                  simp [resumeLoop, List.append_assoc]

theorem feed_append (s : FeedState) (a b : Str) :
    feedFragment s (a ++ b) =
      ((feedFragment (feedFragment s a).1 b).1,
       (feedFragment s a).2 ++ (feedFragment (feedFragment s a).1 b).2) := by
  unfold feedFragment
  rw [← List.append_assoc]
  rw [loop_append (s.buffer ++ a).length _ le_rfl]
  simp [resumeLoop]

theorem feedAll_cons_join (fs : List Str) : ∀ (a : Str) (s : FeedState),
    feedAll s (a :: fs) = feedFragment s (a ++ fs.flatten) := by
  induction fs with
  | nil =>
    intro a s
    simp [feedAll]
  | cons b fs ih =>
    intro a s
    have h1 : feedAll s (a :: b :: fs) =
        ((feedAll (feedFragment s a).1 (b :: fs)).1,
         (feedFragment s a).2 ++ (feedAll (feedFragment s a).1 (b :: fs)).2) := rfl
    rw [h1, ih b (feedFragment s a).1]
    simp only [List.flatten_cons]
    rw [feed_append s a (b ++ fs.flatten)]

/-- C1: for every input text and every way of splitting it into fragments,
feeding the streaming tag-aware filter the text as N arbitrary fragments and
feeding it the same text as one single fragment produce the same concatenated
final emitted content text (the carry-over buffer left at end of stream is
discarded in both runs). -/
theorem c1_rechunk_invariant (frags : List Str) :
    (feedAll initFeed frags).2 = (feedAll initFeed [frags.flatten]).2 := by
  cases frags with
  | nil => rfl
  | cons a fs =>
    rw [feedAll_cons_join fs a initFeed, feedAll_cons_join [] (a :: fs).flatten initFeed]
    simp

/-- C7: counterexample.  On the fragment sequence `["text <thi"]` followed by
end of stream, the streaming filter's total emitted text is not exactly
`"text"` (the space preceding the dangling partial tag is also emitted). -/
theorem c7_counterexample :
    (feedAll initFeed ["text <thi".data]).2 ≠ "text".data := by
  decide

/-- C7 (amended): on `["text <thi"]` followed by end of stream the filter
emits exactly `"text "` (the word and the space before the partial tag); the
dangling partial open tag held in the carry-over buffer is discarded at
stream end and no `<` is ever emitted. -/
theorem c7_amended :
    (feedAll initFeed ["text <thi".data]).2 = "text ".data ∧
    '<' ∉ (feedAll initFeed ["text <thi".data]).2 := by
  constructor
  · decide
  · decide

theorem processChoice_state (s : FeedState) (ch : Choice) :
    (processChoice s ch).1 =
      (match choiceFrag ch with
       | some t => (feedFragment s t).1
       | none => s) := by
  rcases ch with ⟨i, m, d, f, lp⟩
  cases d with
  | none => rfl
  | some d =>
    cases hd : d.content with
    | none => simp [processChoice, choiceFrag, hd]
    | some t =>
      cases t with
      | nil => simp [processChoice, choiceFrag, hd]
      | cons x xs =>
        simp only [processChoice, choiceFrag, hd]
        split_ifs <;> rfl

theorem processChoice_content (s : FeedState) (ch : Choice) :
    ((processChoice s ch).2.toList.map choiceContent).flatten =
      (match choiceFrag ch with
       | some t => (feedFragment s t).2
       | none => []) := by
  rcases ch with ⟨i, m, d, f, lp⟩
  cases d with
  | none => simp [processChoice, choiceFrag, choiceContent]
  | some d =>
    cases hd : d.content with
    | none => simp [processChoice, choiceFrag, choiceContent, hd]
    | some t =>
      cases t with
      | nil => simp [processChoice, choiceFrag, choiceContent, hd]
      | cons x xs =>
        simp only [processChoice, choiceFrag, hd]
        split_ifs with h1 h2
        · simp [choiceContent]
        · simp [choiceContent]
          simpa using h1
        · simpa using h1

theorem feedAll_append (l1 : List Str) : ∀ (l2 : List Str) (s : FeedState),
    feedAll s (l1 ++ l2) =
      ((feedAll (feedAll s l1).1 l2).1,
       (feedAll s l1).2 ++ (feedAll (feedAll s l1).1 l2).2) := by
  induction l1 with
  | nil => intro l2 s; rfl
  | cons a l1 ih =>
    intro l2 s
    have h1 : feedAll s ((a :: l1) ++ l2) =
        ((feedAll (feedFragment s a).1 (l1 ++ l2)).1,
         (feedFragment s a).2 ++ (feedAll (feedFragment s a).1 (l1 ++ l2)).2) := rfl
    have h2 : feedAll s (a :: l1) =
        ((feedAll (feedFragment s a).1 l1).1,
         (feedFragment s a).2 ++ (feedAll (feedFragment s a).1 l1).2) := rfl
    rw [h1, ih l2 (feedFragment s a).1, h2]
    simp

theorem processChoices_feed (chs : List Choice) : ∀ (s : FeedState),
    (processChoices s chs).1 = (feedAll s (chs.filterMap choiceFrag)).1 ∧
    ((processChoices s chs).2.map choiceContent).flatten =
      (feedAll s (chs.filterMap choiceFrag)).2 := by
  induction chs with
  | nil => intro s; exact ⟨rfl, rfl⟩
  | cons ch rest ih =>
    intro s
    have h1 : processChoices s (ch :: rest) =
        ((processChoices (processChoice s ch).1 rest).1,
         (processChoice s ch).2.toList ++ (processChoices (processChoice s ch).1 rest).2) := rfl
    rw [h1]
    cases hf : choiceFrag ch with
    | none =>
      have hst : (processChoice s ch).1 = s := by rw [processChoice_state, hf]
      have hco : ((processChoice s ch).2.toList.map choiceContent).flatten = [] := by
        rw [processChoice_content, hf]
      simp only [List.filterMap_cons, hf]
      rw [hst]
      obtain ⟨ihs, iho⟩ := ih s
      refine ⟨ihs, ?_⟩
      simp only [List.map_append, List.flatten_append, hco, iho]
      simp
    | some t =>
      have hst : (processChoice s ch).1 = (feedFragment s t).1 := by
        rw [processChoice_state, hf]
      have hco : ((processChoice s ch).2.toList.map choiceContent).flatten =
          (feedFragment s t).2 := by
        rw [processChoice_content, hf]
      simp only [List.filterMap_cons, hf]
      obtain ⟨ihs, iho⟩ := ih (processChoice s ch).1
      have h2 : feedAll s (t :: rest.filterMap choiceFrag) =
          ((feedAll (feedFragment s t).1 (rest.filterMap choiceFrag)).1,
           (feedFragment s t).2 ++ (feedAll (feedFragment s t).1 (rest.filterMap choiceFrag)).2) := rfl
      rw [h2, ← hst]
      refine ⟨ihs, ?_⟩
      simp only [List.map_append, List.flatten_append, hco, iho]

theorem processChunk_feed (c : ChatCompletionChunk) (s : FeedState) :
    (processChunk s c).1 = (feedAll s (chunkFrags c)).1 ∧
    ((processChunk s c).2.toList.map fun c' =>
      (c'.choices.map choiceContent).flatten).flatten = (feedAll s (chunkFrags c)).2 := by
  obtain ⟨hs, ho⟩ := processChoices_feed c.choices s
  constructor
  · exact hs
  · show ((if (processChoices s c.choices).2.isEmpty then none
          else some { c with choices := (processChoices s c.choices).2 }).toList.map fun c' =>
          (c'.choices.map choiceContent).flatten).flatten = _
    split_ifs with h
    · have : (processChoices s c.choices).2 = [] := by
        simpa [List.isEmpty_iff] using h
      rw [this] at ho
      simpa using ho.symm ▸ ho
    · simpa using ho

theorem runFiltered_feed (chunks : List ChatCompletionChunk) : ∀ (s : FeedState),
    (runFiltered s chunks).1 = (feedAll s (fragmentsOf chunks)).1 ∧
    emittedContent (runFiltered s chunks).2 = (feedAll s (fragmentsOf chunks)).2 := by
  induction chunks with
  | nil => intro s; exact ⟨rfl, rfl⟩
  | cons c cs ih =>
    intro s
    obtain ⟨hcs, hco⟩ := processChunk_feed c s
    obtain ⟨ihs, iho⟩ := ih (processChunk s c).1
    have h1 : runFiltered s (c :: cs) =
        ((runFiltered (processChunk s c).1 cs).1,
         (processChunk s c).2.toList ++ (runFiltered (processChunk s c).1 cs).2) := rfl
    have h2 : fragmentsOf (c :: cs) = chunkFrags c ++ fragmentsOf cs := by
      simp [fragmentsOf]
    rw [h1, h2, feedAll_append, ← hcs]
    constructor
    · exact ihs
    · have hemit : emittedContent ((processChunk s c).2.toList ++ (runFiltered (processChunk s c).1 cs).2) =
          ((processChunk s c).2.toList.map fun c' =>
            (c'.choices.map choiceContent).flatten).flatten ++
          emittedContent (runFiltered (processChunk s c).1 cs).2 := by
        simp [emittedContent]
      show emittedContent ((processChunk s c).2.toList ++ (runFiltered (processChunk s c).1 cs).2) = _
      rw [hemit, iho, hco]

/-- C4 (amended): the streaming filter does not keep a separate `FilterState`
per choice index; it threads one global state through the content fragments
of all choices in arrival order, so the total emitted content of a filtered
stream equals the single shared machine run over the fragments of every
index interleaved. -/
theorem c4_global_state_amended (s : FeedState) (chunks : List ChatCompletionChunk) :
    emittedContent (runFiltered s chunks).2 = (feedAll s (fragmentsOf chunks)).2 :=
  (runFiltered_feed chunks s).2

/-- C4: counterexample.  With chunk `c4chunkA` (index 0, content `<think>`)
followed by `c4chunkB` (index 1, content `visible`), the content emitted for
index 1 is empty and differs from the filter applied to index 1's own
fragment subsequence alone, which yields `visible`: the state is shared
across indices. -/
theorem c4_counterexample :
    emittedForIndex 1 (runFiltered initFeed [c4chunkA, c4chunkB]).2 ≠
      (feedAll initFeed (fragmentsForIndex 1 [c4chunkA, c4chunkB])).2 := by
  decide

theorem chunk_choices_eta (c : ChatCompletionChunk) (l : List Choice)
    (h : c.choices = l) : { c with choices := l } = c := by
  cases c
  simp_all

theorem processChunk_spec (s : FeedState) (c : ChatCompletionChunk) (ch : Choice)
    (hc : c.choices = [ch]) : processChunk s c = specEmitChunk s c ch := by
  have h1 : processChunk s c =
      ((processChoice s ch).1,
       if ((processChoice s ch).2.toList ++ []).isEmpty then none
       else some { c with choices := (processChoice s ch).2.toList ++ [] }) := by
    simp only [processChunk, processChoices, hc]
  rw [h1]
  rcases ch with ⟨i, m, d, f, lp⟩
  cases d with
  | none =>
    simp only [processChoice, specEmitChunk]
    simp [chunk_choices_eta c _ hc]
  | some d =>
    cases hdc : d.content with
    | none =>
      simp only [processChoice, specEmitChunk, hdc]
      simp [chunk_choices_eta c _ hc]
    | some t =>
      cases t with
      | nil =>
        simp only [processChoice, specEmitChunk, hdc]
        simp [chunk_choices_eta c _ hc]
      | cons x xs =>
        simp only [processChoice, specEmitChunk, hdc]
        by_cases hout : (feedFragment s (x :: xs)).2 = []
        · by_cases hfin : truthyStr f = true
          · simp [hout, hfin]
          · simp [hout, hfin]
        · simp [hout]

theorem c6_run_eq_spec (chunks : List ChatCompletionChunk) : ∀ (s : FeedState),
    (∀ c ∈ chunks, c.choices.length = 1) →
    (runFiltered s chunks).2 = specRun s chunks := by
  induction chunks with
  | nil => intro s _; rfl
  | cons c cs ih =>
    intro s hone
    obtain ⟨ch, hc⟩ : ∃ ch, c.choices = [ch] := by
      have := hone c (List.mem_cons_self c cs)
      cases hcs : c.choices with
      | nil => rw [hcs] at this; simp at this
      | cons a l =>
        rw [hcs] at this
        simp at this
        exact ⟨a, by rw [this]⟩
    have h1 : runFiltered s (c :: cs) =
        ((runFiltered (processChunk s c).1 cs).1,
         (processChunk s c).2.toList ++ (runFiltered (processChunk s c).1 cs).2) := rfl
    have h2 : specRun s (c :: cs) =
        (specEmitChunk s c ch).2.toList ++ specRun (specEmitChunk s c ch).1 cs := by
      simp only [specRun]
      rw [hc]
    rw [h1, h2, processChunk_spec s c ch hc]
    have := ih (specEmitChunk s c ch).1 (fun c' hc' => hone c' (List.mem_cons_of_mem c hc'))
    rw [show ((runFiltered (specEmitChunk s c ch).1 cs).1,
          (specEmitChunk s c ch).2.toList ++ (runFiltered (specEmitChunk s c ch).1 cs).2).2 =
        (specEmitChunk s c ch).2.toList ++ (runFiltered (specEmitChunk s c ch).1 cs).2 from rfl]
    rw [this]

/-- C6: on streams of single-choice chunks the filtered generator's output
equals the declarative §4.3 emission policy: chunks are processed in arrival
order with no reordering or merging, a text-bearing chunk is re-emitted
exactly when its filtered text is non-empty or it carries a (truthy)
finish reason (a finish-reason chunk is never dropped even when its text
filters to nothing), and a chunk whose `delta.content` is absent (or empty,
hence falsy) passes through unfiltered and is always emitted. -/
theorem c6_emission_policy (s : FeedState) (chunks : List ChatCompletionChunk)
    (hone : ∀ c ∈ chunks, c.choices.length = 1) :
    (runFiltered s chunks).2 = specRun s chunks :=
  c6_run_eq_spec chunks s hone

/-- Witness for C6 at the concrete stream `c6chunks`. -/
theorem c6_emission_policy_witness :
    (∀ c ∈ c6chunks, c.choices.length = 1) ∧
    (runFiltered initFeed c6chunks).2 = specRun initFeed c6chunks :=
  ⟨by decide, c6_emission_policy initFeed c6chunks (by decide)⟩

/-- C2: the Event Framer is not invariant under read splitting.  With a
decoder accepting every payload, the single read `"data: x\n"` produces one
decoded event, but the same bytes arriving as the two reads `"da"` and
`"ta: x\n"` produce no event at all: the framer keeps no carry-over between
reads, so a `data:` line split across reads is silently dropped (and a split
after the prefix makes the partial payload fail to parse instead). -/
theorem c2_split_read_drops_event :
    frameReads (fun s => (Except.ok s : Except Str Str)) ["data: x\n".data] =
      (["x".data], none) ∧
    frameReads (fun s => (Except.ok s : Except Str Str)) ["da".data, "ta: x\n".data] =
      ([], none) := by
  exact ⟨by decide, by decide⟩

theorem trim_cons_ne_nil {c : Char} (s : Str) (hw : jsWhitespace c = false) :
    trimStr (c :: s) ≠ [] := by
  unfold trimStr
  rw [List.dropWhile_cons]
  rw [if_neg (by simp [hw])]
  intro hcon
  have h2 : (c :: s).reverse.dropWhile jsWhitespace = [] := by
    have := congrArg List.reverse hcon
    simpa using this
  rw [List.dropWhile_eq_nil_iff] at h2
  have h3 := h2 c (by simp)
  rw [hw] at h3
  cases h3

theorem processLines_error {α : Type} (decode : Str → Except Str α) (ls₁ : List Str) :
    ∀ (p e : Str) (ls₂ : List Str),
    (∀ l ∈ ls₁, lineTerm decode l = none) →
    decode p = .error e →
    trimStr (dataPfx ++ p) ≠ doneLine →
    processLines decode (ls₁ ++ (dataPfx ++ p) :: ls₂) =
      (ls₁.filterMap (lineEvent decode),
       some (.failed (.haiError ("Error parsing stream: ".data ++ e)))) := by
  induction ls₁ with
  | nil =>
    intro p e ls₂ _ hd hnd
    have hne : trimStr (dataPfx ++ p) ≠ [] := by
      have : dataPfx ++ p = 'd' :: ("ata: ".data ++ p) := rfl
      rw [this]
      exact trim_cons_ne_nil _ (by decide)
    simp only [List.nil_append, processLines, List.append_eq]
    rw [if_neg hne, if_neg hnd, if_pos (isPre_self_append dataPfx p)]
    have hdrop : (dataPfx ++ p).drop 6 = p := by
      have : (6 : Nat) = dataPfx.length := rfl
      rw [this]
      simp
    rw [hdrop, hd]
    simp
  | cons l ls ih =>
    intro p e ls₂ hterm hd hnd
    have hl := hterm l (List.mem_cons_self l ls)
    have htail : ∀ x ∈ ls, lineTerm decode x = none := fun x hx =>
      hterm x (List.mem_cons_of_mem l hx)
    simp only [List.cons_append, processLines, List.append_eq]
    by_cases h1 : trimStr l = []
    · rw [if_pos h1, ih p e ls₂ htail hd hnd]
      have hev : lineEvent decode l = (none : Option α) := by simp [lineEvent, h1]
      simp [List.filterMap_cons, hev]
    · rw [if_neg h1]
      by_cases h2 : trimStr l = doneLine
      · exfalso
        have : lineTerm decode l = some .done := by
          unfold lineTerm
          rw [if_neg h1, if_pos h2]
        rw [hl] at this
        cases this
      · rw [if_neg h2]
        by_cases h3 : isPre dataPfx l = true
        · rw [if_pos h3]
          cases hdl : decode (l.drop 6) with
          | ok ev =>
            simp only [hdl]
            rw [ih p e ls₂ htail hd hnd]
            have hev : lineEvent decode l = some ev := by
              simp [lineEvent, h1, h2, h3, hdl, Except.toOption]
            simp [List.filterMap_cons, hev]
          | error msg =>
            exfalso
            have : lineTerm decode l =
                some (.failed (.haiError ("Error parsing stream: ".data ++ msg))) := by
              simp [lineTerm, h1, h2, h3, hdl]
            rw [hl] at this
            cases this
        · rw [if_neg h3]
          rw [ih p e ls₂ htail hd hnd]
          have hev : lineEvent decode l = (none : Option α) := by
            simp [lineEvent, h1, h2, h3]
          simp [List.filterMap_cons, hev]

/-- C5 (amended): a `data:` line whose payload fails to decode is fatal to
the stream, but the error raised is the generic base `HAIError` (message
`Error parsing stream: …`), not a dedicated stream-decode kind: the event
sequence contains exactly the events of the lines before the bad line, the
lines after it are never processed, and the single terminal error is the
base kind (no retry occurs). -/
theorem c5_amended {α : Type} (decode : Str → Except Str α) (r : Str)
    (ls₁ ls₂ : List Str) (p e : Str)
    (hsplit : splitNl r = ls₁ ++ (dataPfx ++ p) :: ls₂)
    (hterm : ∀ l ∈ ls₁, lineTerm decode l = none)
    (hd : decode p = .error e)
    (hnd : trimStr (dataPfx ++ p) ≠ doneLine) :
    frameReads decode [r] =
      (ls₁.filterMap (lineEvent decode),
       some (.failed (.haiError ("Error parsing stream: ".data ++ e)))) := by
  have h2 := processLines_error decode ls₁ p e ls₂ hterm hd hnd
  have h0 : frameReads decode [r] =
      (match (processLines decode (splitNl r)).2 with
       | some t => ((processLines decode (splitNl r)).1, some t)
       | none => ((processLines decode (splitNl r)).1 ++ (frameReads decode ([] : List Str)).1,
                  (frameReads decode ([] : List Str)).2)) := rfl
  rw [h0, hsplit, h2]

/-- Witness for C5 (amended) at a concrete stream with one malformed
payload in the middle. -/
theorem c5_amended_witness :
    (splitNl "data: ok\ndata: zz\ndata: ok\n".data =
      ["data: ok".data] ++ (dataPfx ++ "zz".data) :: ["data: ok".data, []]) ∧
    (∀ l ∈ ["data: ok".data],
      lineTerm (fun s => if s = "ok".data then (Except.ok s : Except Str Str)
                         else .error "bad".data) l = none) ∧
    frameReads (fun s => if s = "ok".data then (Except.ok s : Except Str Str)
                         else .error "bad".data)
        ["data: ok\ndata: zz\ndata: ok\n".data] =
      (["data: ok".data].filterMap
        (lineEvent (fun s => if s = "ok".data then (Except.ok s : Except Str Str)
                             else .error "bad".data)),
       some (.failed (.haiError ("Error parsing stream: ".data ++ "bad".data)))) :=
  ⟨by decide, by decide,
   c5_amended (fun s => if s = "ok".data then (Except.ok s : Except Str Str)
                        else .error "bad".data)
     "data: ok\ndata: zz\ndata: ok\n".data
     ["data: ok".data] ["data: ok".data, []] "zz".data "bad".data
     (by decide) (by decide) rfl (by decide)⟩

/-- C5: counterexample.  On a stream with a malformed payload the framer
fails with the generic base `HAIError` — the error raised is the base class,
`isGenericBase`, contradicting the claim that a dedicated Stream-decode-error
kind distinct from the generic error is raised; the sequence does terminate
at the bad line and no retry occurs. -/
theorem c5_counterexample :
    frameReads (fun s => if s = "ok".data then (Except.ok s : Except Str Str)
                         else .error "bad".data)
        ["data: ok\ndata: zz\ndata: ok\n".data] =
      (["ok".data], some (.failed (.haiError "Error parsing stream: bad".data))) ∧
    ErrK.isGenericBase (.haiError "Error parsing stream: bad".data) = true := by
  exact ⟨by decide, rfl⟩

theorem upToQuote_boundary (b c : Str) (hb : squote ∉ b) :
    upToQuote (b ++ squote :: c) = some b := by
  induction b with
  | nil => simp [upToQuote]
  | cons x bs ih =>
    have hx : ¬ x = squote := fun h => hb (h ▸ List.mem_cons_self x bs)
    simp only [List.cons_append, upToQuote, List.append_eq]
    rw [if_neg hx, ih (fun h => hb (List.mem_cons_of_mem x h))]
    rfl

theorem upToQuote_none (s : Str) (h : squote ∉ s) : upToQuote s = none := by
  induction s with
  | nil => rfl
  | cons x r ih =>
    have hx : ¬ x = squote := fun hh => h (hh ▸ List.mem_cons_self x r)
    simp only [upToQuote]
    rw [if_neg hx, ih (fun hh => h (List.mem_cons_of_mem x hh))]
    rfl

theorem firstQuoted_boundary (a b c : Str) (ha : squote ∉ a) (hb : squote ∉ b) :
    firstQuoted (a ++ squote :: (b ++ squote :: c)) = some b := by
  induction a with
  | nil =>
    simp only [List.nil_append, firstQuoted]
    rw [if_pos trivial]
    exact upToQuote_boundary b c hb
  | cons x as ih =>
    have hx : ¬ x = squote := fun h => ha (h ▸ List.mem_cons_self x as)
    simp only [List.cons_append, firstQuoted]
    rw [if_neg hx]
    exact ih (fun h => ha (List.mem_cons_of_mem x h))

theorem firstQuoted_of_count_le_one (s : Str) (h : s.count squote ≤ 1) :
    firstQuoted s = none := by
  induction s with
  | nil => rfl
  | cons x r ih =>
    simp only [firstQuoted]
    by_cases hx : x = squote
    · rw [if_pos hx]
      have hcnt : r.count squote = 0 := by
        rw [List.count_cons] at h
        simp [hx] at h
        omega
      exact upToQuote_none r (by
        intro hmem
        have := List.count_pos_iff.mpr hmem
        omega)
    · rw [if_neg hx]
      refine ih ?_
      rw [List.count_cons] at h
      by_cases hxq : (x == squote) = true
      · exact absurd (by simpa using hxq) hx
      · simp [hxq] at h
        omega

/-- C8: for a 400 response whose message mentions a model, the classifier
raises the Invalid-model kind with the model identifier extracted as the text
between the first two single quotes of the message; when the message has at
most one single quote (no single-quoted substring), the model is reported as
`Unknown model` and classification still succeeds with the same kind. -/
theorem c8_invalid_model (a b c : Str) (etype ecode : Option Str) (headers : Headers)
    (ha : squote ∉ a) (hb : squote ∉ b)
    (hm : containsSub "model".data (toLowerStr (a ++ squote :: (b ++ squote :: c))) = true) :
    classify 400 (a ++ squote :: (b ++ squote :: c)) etype ecode headers = .invalidModel b
    ∧ ∀ (msg : Str), containsSub "model".data (toLowerStr msg) = true →
        msg.count squote ≤ 1 →
        classify 400 msg etype ecode headers = .invalidModel ("Unknown model".data) := by
  constructor
  · unfold classify
    rw [if_neg (by decide), if_pos rfl, if_pos hm]
    unfold extractModel
    rw [firstQuoted_boundary a b c ha hb]
  · intro msg hm' hq
    unfold classify
    rw [if_neg (by decide), if_pos rfl, if_pos hm']
    unfold extractModel
    rw [firstQuoted_of_count_le_one msg hq]

/-- Witness for C8 at the message `Model 'gpt-x' not found`. -/
theorem c8_invalid_model_witness :
    (squote ∉ "Model ".data) ∧ (squote ∉ "gpt-x".data) ∧
    containsSub "model".data
      (toLowerStr ("Model ".data ++ squote :: ("gpt-x".data ++ squote :: " not found".data))) = true ∧
    classify 400 ("Model ".data ++ squote :: ("gpt-x".data ++ squote :: " not found".data))
      none none [] = .invalidModel "gpt-x".data :=
  ⟨by decide, by decide, by decide,
   (c8_invalid_model "Model ".data "gpt-x".data " not found".data none none []
     (by decide) (by decide) (by decide)).1⟩

/-- C9: evaluation of the 429 classification.  With header
`retry-after: 60` the Rate-limited kind carries retry-after 60, and with the
header missing it is absent — but with an unparsable header value such as
`abc`, `parseInt` returns `NaN` (it never throws, so the surrounding
`try`/`catch` cannot produce `undefined`), and the kind carries a present
`NaN` rather than an absent field. -/
theorem c9_retry_after_values :
    classify 429 "msg".data none none [("retry-after".data, "60".data)] =
      .tooManyRequests (some (.num 60)) ∧
    classify 429 "msg".data none none [] = .tooManyRequests none ∧
    classify 429 "msg".data none none [("retry-after".data, "abc".data)] =
      .tooManyRequests (some .nan) := by
  exact ⟨by decide, by decide, by decide⟩

/-- C10: the non-streaming hideThink filter changes only the `content` field
of each choice's message.  The completion's `id`, `created`, `model`,
`object`, `system_fingerprint` and `usage` are unchanged, and choicewise the
`index`, `finish_reason`, `logprobs`, `delta`, message `role`,
`function_call` and `tool_calls` are unchanged; a choice whose message is
absent, or whose message content is absent or empty, is returned entirely
unchanged. -/
theorem c10_frame_conditions (comp : ChatCompletion) :
    (filterCompletion comp).id = comp.id ∧
    (filterCompletion comp).created = comp.created ∧
    (filterCompletion comp).model = comp.model ∧
    (filterCompletion comp).object = comp.object ∧
    (filterCompletion comp).system_fingerprint = comp.system_fingerprint ∧
    (filterCompletion comp).usage = comp.usage ∧
    List.Forall₂ (fun ch ch' =>
      ch'.index = ch.index ∧ ch'.finish_reason = ch.finish_reason ∧
      ch'.logprobs = ch.logprobs ∧ ch'.delta = ch.delta ∧
      (match ch.message, ch'.message with
       | none, none => True
       | some m, some m' => m'.role = m.role ∧ m'.function_call = m.function_call ∧
                            m'.tool_calls = m.tool_calls
       | _, _ => False) ∧
      ((ch.message = none ∨
        ∃ m, ch.message = some m ∧ (m.content = none ∨ m.content = some [])) → ch' = ch))
      comp.choices (filterCompletion comp).choices := by
  refine ⟨rfl, rfl, rfl, rfl, rfl, rfl, ?_⟩
  show List.Forall₂ _ comp.choices (comp.choices.map _)
  induction comp.choices with
  | nil => exact List.Forall₂.nil
  | cons ch rest ih =>
    refine List.Forall₂.cons ?_ ih
    rcases ch with ⟨i, m, d, fr, lp⟩
    cases m with
    | none => exact ⟨rfl, rfl, rfl, rfl, trivial, fun _ => rfl⟩
    | some m =>
      rcases m with ⟨ro, co, fc, tc⟩
      cases co with
      | none => exact ⟨rfl, rfl, rfl, rfl, ⟨rfl, rfl, rfl⟩, fun _ => rfl⟩
      | some t =>
        cases t with
        | nil => exact ⟨rfl, rfl, rfl, rfl, ⟨rfl, rfl, rfl⟩, fun _ => rfl⟩
        | cons x xs =>
          refine ⟨rfl, rfl, rfl, rfl, ⟨rfl, rfl, rfl⟩, ?_⟩
          intro hyp
          rcases hyp with h | ⟨m₀, hm₀, hcon⟩
          · cases h
          · rcases hcon with hcon | hcon <;> · injection hm₀ with hm₀; subst hm₀; cases hcon

theorem isPre_cons_ne {a b : Char} (as bs : Str) (h : ¬ a = b) :
    isPre (a :: as) (b :: bs) = false := by
  simp only [isPre, Bool.and_eq_false_iff]
  left
  exact beq_eq_false_iff_ne.mpr h

theorem loopTxt (p : Str) : ∀ (ctx : FilterCtx) (rest : Str), p ≠ [] →
    (∀ c ∈ p, ¬ c = '<' ∧ jsWhitespace c = false) →
    ctx.state.isReasoning = false → ctx.state.isSer = false →
    filterLoop ctx (p ++ rest) =
      ((filterLoop { ctx with consecutiveNewlines := 0, lastCharWasSpace := false, streamStarted := true } rest).1, (filterLoop { ctx with consecutiveNewlines := 0, lastCharWasSpace := false, streamStarted := true } rest).2.1, p ++ (filterLoop { ctx with consecutiveNewlines := 0, lastCharWasSpace := false, streamStarted := true } rest).2.2) := by
  induction p with
  | nil => intro ctx rest hne _ _ _; exact absurd rfl hne
  | cons c p' ih =>
    intro ctx rest _ hp hR hS
    have hc := hp c (List.mem_cons_self c p')
    have hOT : isPre openThink (c :: (p' ++ rest)) = false :=
      isPre_cons_ne _ _ (fun h => hc.1 h.symm)
    have hOS : isPre openSer (c :: (p' ++ rest)) = false :=
      isPre_cons_ne _ _ (fun h => hc.1 h.symm)
    have hB1 : isPre (c :: (p' ++ rest)) openThink = false :=
      isPre_cons_ne _ _ hc.1
    have hB2 : isPre (c :: (p' ++ rest)) openSer = false :=
      isPre_cons_ne _ _ hc.1
    rw [List.cons_append, stepChar hR hS hOT hOS hB1 hB2 hc.2]
    cases p' with
    | nil => simp
    | cons d p'' =>
      rw [ih { ctx with consecutiveNewlines := 0, lastCharWasSpace := false, streamStarted := true } rest (by simp) (fun x hx => hp x (List.mem_cons_of_mem c hx)) hR hS]
      simp

theorem loopThinkBody (b : Str) : ∀ (ctx : FilterCtx) (rest : Str),
    (∀ c ∈ b, ¬ c = '<') → ctx.state.isReasoning = true →
    filterLoop ctx (b ++ (closeThink ++ rest)) =
      filterLoop { ctx with state := { ctx.state with isReasoning := false }, lastCharWasSpace := true } rest := by
  induction b with
  | nil =>
    intro ctx rest _ hR
    rw [show ([] : Str) ++ (closeThink ++ rest) =
        '<' :: ('/' :: 't' :: 'h' :: 'i' :: 'n' :: 'k' :: '>' :: rest) from rfl]
    have hC : isPre closeThink ('<' :: ('/' :: 't' :: 'h' :: 'i' :: 'n' :: 'k' :: '>' :: rest)) = true :=
      isPre_self_append closeThink rest
    rw [stepThinkClose hR hC]
    rfl
  | cons c b' ih =>
    intro ctx rest hb hR
    have hc := hb c (List.mem_cons_self c b')
    have h1 : isPre closeThink (c :: (b' ++ (closeThink ++ rest))) = false :=
      isPre_cons_ne _ _ (fun h => hc h.symm)
    have h2 : isPre (c :: (b' ++ (closeThink ++ rest))) closeThink = false :=
      isPre_cons_ne _ _ hc
    rw [List.cons_append, stepThinkSkip hR h1 h2]
    exact ih ctx rest (fun x hx => hb x (List.mem_cons_of_mem c hx)) hR

theorem loopSerBody (b : Str) : ∀ (ctx : FilterCtx) (rest : Str),
    (∀ c ∈ b, ¬ c = '<') → ctx.state.isReasoning = false → ctx.state.isSer = true →
    filterLoop ctx (b ++ (closeSer ++ rest)) =
      filterLoop { ctx with state := { ctx.state with isSer := false }, lastCharWasSpace := true } rest := by
  induction b with
  | nil =>
    intro ctx rest _ hR hS
    rw [show ([] : Str) ++ (closeSer ++ rest) =
        '<' :: ('/' :: 's' :: 'e' :: 'r' :: '>' :: rest) from rfl]
    have hC : isPre closeSer ('<' :: ('/' :: 's' :: 'e' :: 'r' :: '>' :: rest)) = true :=
      isPre_self_append closeSer rest
    rw [stepSerClose hR hS hC]
    rfl
  | cons c b' ih =>
    intro ctx rest hb hR hS
    have hc := hb c (List.mem_cons_self c b')
    have h1 : isPre closeSer (c :: (b' ++ (closeSer ++ rest))) = false :=
      isPre_cons_ne _ _ (fun h => hc h.symm)
    have h2 : isPre (c :: (b' ++ (closeSer ++ rest))) closeSer = false :=
      isPre_cons_ne _ _ hc
    rw [List.cons_append, stepSerSkip hR hS h1 h2]
    exact ih ctx rest (fun x hx => hb x (List.mem_cons_of_mem c hx)) hR hS

theorem loopThinkBlock (b : Str) (ctx : FilterCtx) (rest : Str)
    (hb : ∀ c ∈ b, ¬ c = '<')
    (hR : ctx.state.isReasoning = false) (hS : ctx.state.isSer = false) :
    filterLoop ctx ((openThink ++ b ++ closeThink) ++ rest) =
      filterLoop { ctx with lastCharWasSpace := true } rest := by
  have hform : (openThink ++ b ++ closeThink) ++ rest =
      '<' :: ('t' :: 'h' :: 'i' :: 'n' :: 'k' :: '>' :: (b ++ (closeThink ++ rest))) := by
    simp [openThink]
  rw [hform]
  rw [stepOpenThink hR hS (by
    rw [← hform]
    have : (openThink ++ b ++ closeThink) ++ rest = openThink ++ (b ++ (closeThink ++ rest)) := by
      simp
    rw [this]
    exact isPre_self_append openThink (b ++ (closeThink ++ rest)))]
  rw [show ('<' :: ('t' :: 'h' :: 'i' :: 'n' :: 'k' :: '>' :: (b ++ (closeThink ++ rest)))).drop 7
      = b ++ (closeThink ++ rest) from rfl]
  rw [loopThinkBody b _ rest hb (by simp)]
  rcases ctx with ⟨⟨ir, is⟩, cn, lc, ss⟩
  simp only at hR hS
  subst hR hS
  rfl

theorem loopSerBlock (b : Str) (ctx : FilterCtx) (rest : Str)
    (hb : ∀ c ∈ b, ¬ c = '<')
    (hR : ctx.state.isReasoning = false) (hS : ctx.state.isSer = false) :
    filterLoop ctx ((openSer ++ b ++ closeSer) ++ rest) =
      filterLoop { ctx with lastCharWasSpace := true } rest := by
  have hform : (openSer ++ b ++ closeSer) ++ rest =
      '<' :: ('s' :: 'e' :: 'r' :: '>' :: (b ++ (closeSer ++ rest))) := by
    simp [openSer]
  rw [hform]
  have hOT : isPre openThink ('<' :: ('s' :: 'e' :: 'r' :: '>' :: (b ++ (closeSer ++ rest)))) = false := rfl
  rw [stepOpenSer hR hS hOT (by
    rw [← hform]
    have : (openSer ++ b ++ closeSer) ++ rest = openSer ++ (b ++ (closeSer ++ rest)) := by
      simp
    rw [this]
    exact isPre_self_append openSer (b ++ (closeSer ++ rest)))]
  rw [show ('<' :: ('s' :: 'e' :: 'r' :: '>' :: (b ++ (closeSer ++ rest)))).drop 5
      = b ++ (closeSer ++ rest) from rfl]
  rw [loopSerBody b _ rest hb (by simp [hR]) (by simp)]
  rcases ctx with ⟨⟨ir, is⟩, cn, lc, ss⟩
  simp only at hR hS
  subst hR hS
  rfl

theorem loopRender (segs : List Seg) : ∀ (ctx : FilterCtx), okSegs segs = true →
    ctx.state.isReasoning = false → ctx.state.isSer = false →
    (filterLoop ctx (render segs)).2.1 = [] ∧
    (filterLoop ctx (render segs)).2.2 = visible segs ∧
    (filterLoop ctx (render segs)).1.state.isReasoning = false ∧
    (filterLoop ctx (render segs)).1.state.isSer = false := by
  induction segs with
  | nil => intro ctx _ hR hS; exact ⟨rfl, rfl, hR, hS⟩
  | cons sg rest ih =>
    intro ctx hok hR hS
    have hok' : okSegs rest = true := by
      simp only [okSegs, List.all_cons, Bool.and_eq_true] at hok
      exact hok.2
    have hoksg : okSeg sg = true := by
      simp only [okSegs, List.all_cons, Bool.and_eq_true] at hok
      exact hok.1
    cases sg with
    | txt p =>
      have hp : ∀ c ∈ p, ¬ c = '<' ∧ jsWhitespace c = false := by
        intro c hc
        simp only [okSeg, List.all_eq_true] at hoksg
        have := hoksg c hc
        simp only [Bool.and_eq_true, Bool.not_eq_true'] at this
        refine ⟨?_, this.2⟩
        intro hcc
        rw [hcc] at this
        simp at this
      cases p with
      | nil =>
        have hren : render (Seg.txt [] :: rest) = render rest := by simp [render, renderSeg]
        have hvis : visible (Seg.txt [] :: rest) = visible rest := by simp [visible]
        rw [hren, hvis]
        exact ih ctx hok' hR hS
      | cons x p' =>
        have hren : render (Seg.txt (x :: p') :: rest) = (x :: p') ++ render rest := by
          simp [render, renderSeg]
        have hvis : visible (Seg.txt (x :: p') :: rest) = (x :: p') ++ visible rest := rfl
        rw [hren, hvis]
        rw [loopTxt (x :: p') ctx (render rest) (by simp) hp hR hS]
        obtain ⟨ih1, ih2, ih3, ih4⟩ := ih { ctx with consecutiveNewlines := 0, lastCharWasSpace := false, streamStarted := true } hok' hR hS
        exact ⟨ih1, by rw [ih2], ih3, ih4⟩
    | think b =>
      have hb : ∀ c ∈ b, ¬ c = '<' := by
        intro c hc
        simp only [okSeg, List.all_eq_true] at hoksg
        have := hoksg c hc
        intro hcc
        rw [hcc] at this
        simp at this
      have hren : render (Seg.think b :: rest) = (openThink ++ b ++ closeThink) ++ render rest := by
        simp [render, renderSeg]
      have hvis : visible (Seg.think b :: rest) = visible rest := rfl
      rw [hren, hvis, loopThinkBlock b ctx (render rest) hb hR hS]
      exact ih { ctx with lastCharWasSpace := true } hok' hR hS
    | ser b =>
      have hb : ∀ c ∈ b, ¬ c = '<' := by
        intro c hc
        simp only [okSeg, List.all_eq_true] at hoksg
        have := hoksg c hc
        intro hcc
        rw [hcc] at this
        simp at this
      have hren : render (Seg.ser b :: rest) = (openSer ++ b ++ closeSer) ++ render rest := by
        simp [render, renderSeg]
      have hvis : visible (Seg.ser b :: rest) = visible rest := rfl
      rw [hren, hvis, loopSerBlock b ctx (render rest) hb hR hS]
      exact ih { ctx with lastCharWasSpace := true } hok' hR hS

theorem removeBF_irr (openT closeT : Str) (ho : openT ≠ []) (f₁ : Nat) :
    ∀ (f₂ : Nat) (s : Str), s.length ≤ f₁ → s.length ≤ f₂ →
    removeBF openT closeT f₁ s = removeBF openT closeT f₂ s := by
  induction f₁ with
  | zero =>
    intro f₂ s h1 _
    have hs : s = [] := List.length_eq_zero.mp (Nat.le_zero.mp h1)
    subst hs
    cases f₂ <;> rfl
  | succ n ih =>
    intro f₂ s h1 h2
    cases s with
    | nil => cases f₂ <;> rfl
    | cons c r =>
      cases f₂ with
      | zero => simp at h2
      | succ m =>
        have hr : r.length ≤ n := by simpa using h1
        have hr' : r.length ≤ m := by simpa using h2
        have hol : 0 < openT.length := by
          cases openT with
          | nil => exact absurd rfl ho
          | cons _ _ => simp
        simp only [removeBF]
        by_cases hop : isPre openT (c :: r) = true
        · rw [if_pos hop, if_pos hop]
          cases hfi : firstIdx closeT ((c :: r).drop openT.length) with
          | none => rfl
          | some j =>
            refine ih m _ ?_ ?_ <;>
              simp only [List.length_drop, List.length_cons] <;> omega
        · rw [if_neg (by simp [hop]), if_neg (by simp [hop])]
          rw [ih m r hr hr']

theorem removeB_keep (openT closeT : Str) (x : Char) (r : Str)
    (h : isPre openT (x :: r) = false) :
    removeB openT closeT (x :: r) = x :: removeB openT closeT r := by
  show removeBF openT closeT (r.length + 1) (x :: r) = _
  simp only [removeBF]
  rw [if_neg (by simp [h])]
  rfl

theorem removeB_remove (openT closeT : Str) (ho : openT ≠ []) (x : Char) (r : Str) (j : Nat)
    (h : isPre openT (x :: r) = true)
    (hf : firstIdx closeT ((x :: r).drop openT.length) = some j) :
    removeB openT closeT (x :: r) =
      removeB openT closeT ((x :: r).drop (openT.length + j + closeT.length)) := by
  show removeBF openT closeT (r.length + 1) (x :: r) = _
  simp only [removeBF]
  rw [if_pos h, hf]
  have hol : 0 < openT.length := by
    cases openT with
    | nil => exact absurd rfl ho
    | cons _ _ => simp
  refine removeBF_irr openT closeT ho _ _ _ ?_ ?_ <;>
    simp only [List.length_drop, List.length_cons] <;> omega

theorem firstIdx_boundary (closeT : Str) (u : Str) (hu : closeT = '<' :: u)
    (b : Str) (hb : ∀ c ∈ b, ¬ c = '<') (X : Str) :
    firstIdx closeT (b ++ (closeT ++ X)) = some b.length := by
  induction b with
  | nil =>
    subst hu
    simp only [List.nil_append, List.cons_append, firstIdx]
    rw [if_pos ?_]
    · rfl
    · exact isPre_self_append ('<' :: u) X
  | cons c b' ih =>
    have hc := hb c (List.mem_cons_self c b')
    have hpre : isPre closeT (c :: (b' ++ (closeT ++ X))) = false := by
      subst hu
      exact isPre_cons_ne _ _ (fun h => hc h.symm)
    simp only [List.cons_append, firstIdx, List.append_eq]
    rw [if_neg (by simp [hpre]), ih (fun x hx => hb x (List.mem_cons_of_mem c hx))]
    simp

theorem removeB_copy (openT closeT : Str) (u : Str) (hu : openT = '<' :: u)
    (p : Str) (hp : ∀ c ∈ p, ¬ c = '<') (X : Str) :
    removeB openT closeT (p ++ X) = p ++ removeB openT closeT X := by
  induction p with
  | nil => rfl
  | cons c p' ih =>
    have hc := hp c (List.mem_cons_self c p')
    have hpre : isPre openT (c :: (p' ++ X)) = false := by
      subst hu
      exact isPre_cons_ne _ _ (fun h => hc h.symm)
    rw [List.cons_append, removeB_keep openT closeT c (p' ++ X) hpre,
        ih (fun x hx => hp x (List.mem_cons_of_mem c hx))]
    rfl

theorem okSeg_txt_chars {p : Str} (h : okSeg (Seg.txt p) = true) :
    ∀ c ∈ p, ¬ c = '<' ∧ jsWhitespace c = false := by
  intro c hc
  simp only [okSeg, List.all_eq_true] at h
  have := h c hc
  simp only [Bool.and_eq_true, Bool.not_eq_true'] at this
  refine ⟨?_, this.2⟩
  intro hcc
  rw [hcc] at this
  simp at this

theorem okSeg_think_chars {b : Str} (h : okSeg (Seg.think b) = true) :
    ∀ c ∈ b, ¬ c = '<' := by
  intro c hc
  simp only [okSeg, List.all_eq_true] at h
  have := h c hc
  intro hcc
  rw [hcc] at this
  simp at this

theorem okSeg_ser_chars {b : Str} (h : okSeg (Seg.ser b) = true) :
    ∀ c ∈ b, ¬ c = '<' := by
  intro c hc
  simp only [okSeg, List.all_eq_true] at h
  have := h c hc
  intro hcc
  rw [hcc] at this
  simp at this

theorem okSegs_head {sg : Seg} {rest : List Seg} (h : okSegs (sg :: rest) = true) :
    okSeg sg = true ∧ okSegs rest = true := by
  simp only [okSegs, List.all_cons, Bool.and_eq_true] at h
  exact h

theorem removeThink_render (segs : List Seg) (hok : okSegs segs = true) :
    removeB openThink closeThink (render segs) =
      render (segs.filter fun sg => !isThinkSeg sg) := by
  induction segs with
  | nil => rfl
  | cons sg rest ih =>
    obtain ⟨hsg, hrest⟩ := okSegs_head hok
    cases sg with
    | txt p =>
      have hren : render (Seg.txt p :: rest) = p ++ render rest := by
        simp [render, renderSeg]
      have hfil : (Seg.txt p :: rest).filter (fun sg => !isThinkSeg sg) =
          Seg.txt p :: rest.filter (fun sg => !isThinkSeg sg) := by
        simp [List.filter_cons, isThinkSeg]
      rw [hren, hfil]
      rw [removeB_copy openThink closeThink _ rfl p
        (fun c hc => (okSeg_txt_chars hsg c hc).1) (render rest)]
      rw [ih hrest]
      simp [render, renderSeg]
    | think b =>
      have hb := okSeg_think_chars hsg
      have hform : render (Seg.think b :: rest) =
          '<' :: ('t' :: 'h' :: 'i' :: 'n' :: 'k' :: '>' :: (b ++ (closeThink ++ render rest))) := by
        simp [render, renderSeg, openThink]
      have hfil : (Seg.think b :: rest).filter (fun sg => !isThinkSeg sg) =
          rest.filter (fun sg => !isThinkSeg sg) := by
        simp [List.filter_cons, isThinkSeg]
      rw [hform, hfil]
      have hpre : isPre openThink
          ('<' :: ('t' :: 'h' :: 'i' :: 'n' :: 'k' :: '>' :: (b ++ (closeThink ++ render rest)))) = true :=
        isPre_self_append openThink (b ++ (closeThink ++ render rest))
      have hfi : firstIdx closeThink
          (('<' :: ('t' :: 'h' :: 'i' :: 'n' :: 'k' :: '>' :: (b ++ (closeThink ++ render rest)))).drop openThink.length) =
          some b.length :=
        firstIdx_boundary closeThink _ rfl b hb (render rest)
      rw [removeB_remove openThink closeThink (by decide) _ _ b.length hpre hfi]
      have hdrop : ('<' :: ('t' :: 'h' :: 'i' :: 'n' :: 'k' :: '>' :: (b ++ (closeThink ++ render rest)))).drop
          (openThink.length + b.length + closeThink.length) = render rest := by
        show (openThink ++ (b ++ (closeThink ++ render rest))).drop
          (openThink.length + b.length + closeThink.length) = render rest
        rw [show openThink.length + b.length + closeThink.length =
            openThink.length + (b.length + closeThink.length) from by omega]
        rw [List.drop_append (b.length + closeThink.length)]
        rw [show b.length + closeThink.length = b.length + closeThink.length from rfl]
        rw [List.drop_append closeThink.length]
        exact List.drop_left closeThink (render rest)
      rw [hdrop]
      exact ih hrest
    | ser b =>
      have hb := okSeg_ser_chars hsg
      have hform : render (Seg.ser b :: rest) =
          '<' :: 's' :: 'e' :: 'r' :: '>' :: (b ++ ('<' :: '/' :: 's' :: 'e' :: 'r' :: '>' :: render rest)) := by
        simp [render, renderSeg, openSer, closeSer]
      have hfil : (Seg.ser b :: rest).filter (fun sg => !isThinkSeg sg) =
          Seg.ser b :: rest.filter (fun sg => !isThinkSeg sg) := by
        simp [List.filter_cons, isThinkSeg]
      rw [hform, hfil]
      have k1 : removeB openThink closeThink
          ('<' :: 's' :: 'e' :: 'r' :: '>' :: (b ++ ('<' :: '/' :: 's' :: 'e' :: 'r' :: '>' :: render rest))) =
          '<' :: removeB openThink closeThink
          ('s' :: 'e' :: 'r' :: '>' :: (b ++ ('<' :: '/' :: 's' :: 'e' :: 'r' :: '>' :: render rest))) :=
        removeB_keep _ _ _ _ rfl
      have k2 : removeB openThink closeThink
          ('s' :: 'e' :: 'r' :: '>' :: (b ++ ('<' :: '/' :: 's' :: 'e' :: 'r' :: '>' :: render rest))) =
          's' :: removeB openThink closeThink
          ('e' :: 'r' :: '>' :: (b ++ ('<' :: '/' :: 's' :: 'e' :: 'r' :: '>' :: render rest))) :=
        removeB_keep _ _ _ _ rfl
      have k3 : removeB openThink closeThink
          ('e' :: 'r' :: '>' :: (b ++ ('<' :: '/' :: 's' :: 'e' :: 'r' :: '>' :: render rest))) =
          'e' :: removeB openThink closeThink
          ('r' :: '>' :: (b ++ ('<' :: '/' :: 's' :: 'e' :: 'r' :: '>' :: render rest))) :=
        removeB_keep _ _ _ _ rfl
      have k4 : removeB openThink closeThink
          ('r' :: '>' :: (b ++ ('<' :: '/' :: 's' :: 'e' :: 'r' :: '>' :: render rest))) =
          'r' :: removeB openThink closeThink
          ('>' :: (b ++ ('<' :: '/' :: 's' :: 'e' :: 'r' :: '>' :: render rest))) :=
        removeB_keep _ _ _ _ rfl
      have k5 : removeB openThink closeThink
          ('>' :: (b ++ ('<' :: '/' :: 's' :: 'e' :: 'r' :: '>' :: render rest))) =
          '>' :: removeB openThink closeThink
          (b ++ ('<' :: '/' :: 's' :: 'e' :: 'r' :: '>' :: render rest)) :=
        removeB_keep _ _ _ _ rfl
      have kb : removeB openThink closeThink
          (b ++ ('<' :: '/' :: 's' :: 'e' :: 'r' :: '>' :: render rest)) =
          b ++ removeB openThink closeThink
          ('<' :: '/' :: 's' :: 'e' :: 'r' :: '>' :: render rest) :=
        removeB_copy openThink closeThink _ rfl b hb _
      have k6 : removeB openThink closeThink
          ('<' :: '/' :: 's' :: 'e' :: 'r' :: '>' :: render rest) =
          '<' :: removeB openThink closeThink ('/' :: 's' :: 'e' :: 'r' :: '>' :: render rest) :=
        removeB_keep _ _ _ _ rfl
      have k7 : removeB openThink closeThink ('/' :: 's' :: 'e' :: 'r' :: '>' :: render rest) =
          '/' :: removeB openThink closeThink ('s' :: 'e' :: 'r' :: '>' :: render rest) :=
        removeB_keep _ _ _ _ rfl
      have k8 : removeB openThink closeThink ('s' :: 'e' :: 'r' :: '>' :: render rest) =
          's' :: removeB openThink closeThink ('e' :: 'r' :: '>' :: render rest) :=
        removeB_keep _ _ _ _ rfl
      have k9 : removeB openThink closeThink ('e' :: 'r' :: '>' :: render rest) =
          'e' :: removeB openThink closeThink ('r' :: '>' :: render rest) :=
        removeB_keep _ _ _ _ rfl
      have k10 : removeB openThink closeThink ('r' :: '>' :: render rest) =
          'r' :: removeB openThink closeThink ('>' :: render rest) :=
        removeB_keep _ _ _ _ rfl
      have k11 : removeB openThink closeThink ('>' :: render rest) =
          '>' :: removeB openThink closeThink (render rest) :=
        removeB_keep _ _ _ _ rfl
      rw [k1, k2, k3, k4, k5, kb, k6, k7, k8, k9, k10, k11, ih hrest]
      simp [render, renderSeg, openSer, closeSer]

theorem removeSer_visible (segs : List Seg) : okSegs segs = true →
    (∀ sg ∈ segs, isThinkSeg sg = false) →
    removeB openSer closeSer (render segs) = visible segs := by
  induction segs with
  | nil => intro _ _; rfl
  | cons sg rest ih =>
    intro hok hnt
    obtain ⟨hsg, hrest⟩ := okSegs_head hok
    have hntr : ∀ sg ∈ rest, isThinkSeg sg = false := fun x hx =>
      hnt x (List.mem_cons_of_mem sg hx)
    cases sg with
    | txt p =>
      have hren : render (Seg.txt p :: rest) = p ++ render rest := by
        simp [render, renderSeg]
      rw [hren]
      rw [removeB_copy openSer closeSer _ rfl p
        (fun c hc => (okSeg_txt_chars hsg c hc).1) (render rest)]
      rw [ih hrest hntr]
      rfl
    | think b =>
      have := hnt (Seg.think b) (List.mem_cons_self _ rest)
      simp [isThinkSeg] at this
    | ser b =>
      have hb := okSeg_ser_chars hsg
      have hform : render (Seg.ser b :: rest) =
          '<' :: ('s' :: 'e' :: 'r' :: '>' :: (b ++ (closeSer ++ render rest))) := by
        simp [render, renderSeg, openSer]
      rw [hform]
      have hpre : isPre openSer
          ('<' :: ('s' :: 'e' :: 'r' :: '>' :: (b ++ (closeSer ++ render rest)))) = true :=
        isPre_self_append openSer (b ++ (closeSer ++ render rest))
      have hfi : firstIdx closeSer
          (('<' :: ('s' :: 'e' :: 'r' :: '>' :: (b ++ (closeSer ++ render rest)))).drop openSer.length) =
          some b.length :=
        firstIdx_boundary closeSer _ rfl b hb (render rest)
      rw [removeB_remove openSer closeSer (by decide) _ _ b.length hpre hfi]
      have hdrop : ('<' :: ('s' :: 'e' :: 'r' :: '>' :: (b ++ (closeSer ++ render rest)))).drop
          (openSer.length + b.length + closeSer.length) = render rest := by
        show (openSer ++ (b ++ (closeSer ++ render rest))).drop
          (openSer.length + b.length + closeSer.length) = render rest
        rw [show openSer.length + b.length + closeSer.length =
            openSer.length + (b.length + closeSer.length) from by omega]
        rw [List.drop_append (b.length + closeSer.length)]
        rw [List.drop_append closeSer.length]
        exact List.drop_left closeSer (render rest)
      rw [hdrop]
      exact ih hrest hntr

theorem okSegs_filter (segs : List Seg) (hok : okSegs segs = true)
    (f : Seg → Bool) : okSegs (segs.filter f) = true := by
  simp only [okSegs, List.all_eq_true] at hok ⊢
  intro sg hsg
  exact hok sg (List.mem_of_mem_filter hsg)

theorem noThink_filter (segs : List Seg) :
    ∀ sg ∈ segs.filter (fun sg => !isThinkSeg sg), isThinkSeg sg = false := by
  intro sg hsg
  have := List.of_mem_filter hsg
  simpa using this

theorem visible_filter (segs : List Seg) :
    visible (segs.filter fun sg => !isThinkSeg sg) = visible segs := by
  induction segs with
  | nil => rfl
  | cons sg rest ih =>
    cases sg with
    | txt p =>
      rw [show List.filter (fun sg => !isThinkSeg sg) (Seg.txt p :: rest) =
          Seg.txt p :: List.filter (fun sg => !isThinkSeg sg) rest from rfl]
      rw [show visible (Seg.txt p :: List.filter (fun sg => !isThinkSeg sg) rest) =
          p ++ visible (List.filter (fun sg => !isThinkSeg sg) rest) from rfl]
      rw [show visible (Seg.txt p :: rest) = p ++ visible rest from rfl, ih]
    | think b =>
      rw [show List.filter (fun sg => !isThinkSeg sg) (Seg.think b :: rest) =
          List.filter (fun sg => !isThinkSeg sg) rest from rfl]
      rw [show visible (Seg.think b :: rest) = visible rest from rfl, ih]
    | ser b =>
      rw [show List.filter (fun sg => !isThinkSeg sg) (Seg.ser b :: rest) =
          Seg.ser b :: List.filter (fun sg => !isThinkSeg sg) rest from rfl]
      rw [show visible (Seg.ser b :: List.filter (fun sg => !isThinkSeg sg) rest) =
          visible (List.filter (fun sg => !isThinkSeg sg) rest) from rfl]
      rw [show visible (Seg.ser b :: rest) = visible rest from rfl, ih]

theorem visible_chars (segs : List Seg) (hok : okSegs segs = true) :
    ∀ c ∈ visible segs, ¬ c = '<' ∧ jsWhitespace c = false := by
  induction segs with
  | nil => intro c hc; cases hc
  | cons sg rest ih =>
    obtain ⟨hsg, hrest⟩ := okSegs_head hok
    cases sg with
    | txt p =>
      intro c hc
      rw [show visible (Seg.txt p :: rest) = p ++ visible rest from rfl] at hc
      rcases List.mem_append.mp hc with hc | hc
      · exact okSeg_txt_chars hsg c hc
      · exact ih hrest c hc
    | think b => exact ih hrest
    | ser b => exact ih hrest

theorem fixHyphensF_id (fuel : Nat) : ∀ (s : Str),
    (∀ c ∈ s, jsWhitespace c = false) → fixHyphensF fuel s = s := by
  induction fuel with
  | zero => intro s _; rfl
  | succ n ih =>
    intro s hs
    cases s with
    | nil => rfl
    | cons c r =>
      have hr : ∀ x ∈ r, jsWhitespace x = false := fun x hx =>
        hs x (List.mem_cons_of_mem c hx)
      have hrec : fixHyphensF n r = r := ih r hr
      cases r with
      | nil =>
        simp only [fixHyphensF]
        by_cases hwc : isWordChar c = true
        · rw [if_pos hwc, ih [] (by simp)]
        · rw [if_neg hwc, ih [] (by simp)]
      | cons d t =>
        by_cases hd : d = '-'
        · subst hd
          have htw : t.takeWhile jsWhitespace = [] := by
            cases t with
            | nil => rfl
            | cons y t' =>
              have hy : jsWhitespace y = false :=
                hr y (List.mem_cons_of_mem _ (List.mem_cons_self y t'))
              simp [List.takeWhile_cons, hy]
          simp only [fixHyphensF]
          by_cases hwc : isWordChar c = true
          · rw [if_pos hwc, htw]
            rw [if_neg (by simp)]
            rw [hrec]
          · rw [if_neg hwc, hrec]
        · simp only [fixHyphensF]
          by_cases hwc : isWordChar c = true
          · rw [if_pos hwc]
            split
            · rename_i t2 heq
              injection heq with h1 _
              exact absurd h1 hd
            · rw [hrec]
          · rw [if_neg hwc, hrec]

theorem capNlGo_id (s : Str) : ∀ (run : Nat), (∀ c ∈ s, ¬ c = '\n') →
    capNlGo run s = s := by
  induction s with
  | nil => intro run _; rfl
  | cons c r ih =>
    intro run h
    have hc := h c (List.mem_cons_self c r)
    simp only [capNlGo]
    rw [if_neg hc, ih 0 (fun x hx => h x (List.mem_cons_of_mem c hx))]

theorem capSpGo_id (s : Str) : ∀ (run : Nat), (∀ c ∈ s, ¬ c = ' ') →
    capSpGo run s = s := by
  induction s with
  | nil => intro run _; rfl
  | cons c r ih =>
    intro run h
    have hc := h c (List.mem_cons_self c r)
    simp only [capSpGo]
    rw [if_neg hc, ih 0 (fun x hx => h x (List.mem_cons_of_mem c hx))]

theorem dropWhile_ws_id (s : Str) (h : ∀ c ∈ s, jsWhitespace c = false) :
    s.dropWhile jsWhitespace = s := by
  cases s with
  | nil => rfl
  | cons c r =>
    rw [List.dropWhile_cons, if_neg (by simp [h c (List.mem_cons_self c r)])]

theorem trimStr_id (s : Str) (h : ∀ c ∈ s, jsWhitespace c = false) :
    trimStr s = s := by
  unfold trimStr
  rw [dropWhile_ws_id s h]
  rw [dropWhile_ws_id s.reverse (fun c hc => h c (List.mem_reverse.mp hc))]
  exact List.reverse_reverse s

theorem render_nil_visible (segs : List Seg) (h : render segs = []) :
    visible segs = [] := by
  induction segs with
  | nil => rfl
  | cons sg rest ih =>
    have hh : renderSeg sg ++ render rest = [] := by
      rw [show renderSeg sg ++ render rest = render (sg :: rest) from by simp [render]]
      exact h
    rw [List.append_eq_nil] at hh
    cases sg with
    | txt p =>
      have hp : p = [] := hh.1
      subst hp
      rw [show visible (Seg.txt [] :: rest) = visible rest from rfl]
      exact ih hh.2
    | think b => simp [renderSeg, openThink] at hh
    | ser b => simp [renderSeg, openSer] at hh

theorem pipeline_visible (segs : List Seg) (hok : okSegs segs = true) :
    filterThinkSerBlocks (some (render segs)) = some (visible segs) := by
  have hvc := visible_chars segs hok
  have hcomb : removeB openSer closeSer (removeB openThink closeThink (render segs)) =
      visible segs := by
    rw [removeThink_render segs hok]
    rw [removeSer_visible (segs.filter fun sg => !isThinkSeg sg)
      (okSegs_filter segs hok _) (noThink_filter segs)]
    exact visible_filter segs
  cases hr : render segs with
  | nil =>
    rw [render_nil_visible segs hr]
    rfl
  | cons c r =>
    show some (pipelineStr (c :: r)) = _
    unfold pipelineStr
    rw [← hr]
    show some (trimStr (capSpGo 0 (capNlGo 0 (fixHyphens
      (removeB openSer closeSer (removeB openThink closeThink (render segs))))))) = _
    rw [hcomb]
    rw [show fixHyphens (visible segs) = visible segs from
      fixHyphensF_id _ _ (fun c hc => (hvc c hc).2)]
    rw [capNlGo_id _ 0 (fun c hc hh => by
      have := (hvc c hc).2
      rw [hh] at this
      simp [jsWhitespace] at this)]
    rw [capSpGo_id _ 0 (fun c hc hh => by
      have := (hvc c hc).2
      rw [hh] at this
      simp [jsWhitespace] at this)]
    rw [trimStr_id _ (fun c hc => (hvc c hc).2)]

theorem machine_visible (segs : List Seg) (hok : okSegs segs = true) :
    (feedFragment initFeed (render segs)).2 = visible segs := by
  obtain ⟨_, h2, _, _⟩ := loopRender segs initFeed.ctx hok rfl rfl
  show (filterLoop initFeed.ctx ([] ++ render segs)).2.2 = _
  rw [List.nil_append]
  exact h2

/-- C3 (amended): for well-formed tagged texts — visible text free of `<` and
of whitespace, complete `<think>`/`<ser>` blocks whose bodies contain no `<`
— the non-streaming whole-text filter produces exactly the output the
streaming filter produces on the same full text as one fragment (both equal
the visible text).  In general the two filters differ beyond the
hyphen-rejoin rule (whitespace handling and unclosed tags diverge; see the
counterexample). -/
theorem c3_streaming_vs_whole (segs : List Seg) (hok : okSegs segs = true) :
    filterThinkSerBlocks (some (render segs)) =
      some ((feedFragment initFeed (render segs)).2) := by
  rw [pipeline_visible segs hok, machine_visible segs hok]

/-- Witness for C3 (amended) at a concrete tagged text. -/
theorem c3_streaming_vs_whole_witness :
    okSegs [Seg.txt "Hello,".data, Seg.think "sec".data, Seg.ser "emo".data,
      Seg.txt "World".data] = true ∧
    filterThinkSerBlocks (some (render [Seg.txt "Hello,".data, Seg.think "sec".data,
      Seg.ser "emo".data, Seg.txt "World".data])) =
      some ((feedFragment initFeed (render [Seg.txt "Hello,".data, Seg.think "sec".data,
        Seg.ser "emo".data, Seg.txt "World".data])).2) :=
  ⟨by decide, c3_streaming_vs_whole _ (by decide)⟩

/-- C3: counterexample.  On the text `a\tb` the hyphen-rejoin step is the
identity, yet the whole-text filter returns `a\tb` unchanged (its space
collapsing touches only plain spaces) while the streaming filter returns
`a b` (any whitespace becomes a space): the two differ beyond the permitted
hyphen-rejoin asymmetry. -/
theorem c3_counterexample :
    filterThinkSerBlocks (some "a\tb".data) = some "a\tb".data ∧
    (feedFragment initFeed "a\tb".data).2 = "a b".data ∧
    fixHyphens "a\tb".data = "a\tb".data ∧
    ("a\tb".data : Str) ≠ "a b".data := by
  exact ⟨by decide, by decide, by decide, by decide⟩

end HAI
